import Mathlib

/-!
Verification of the dependency-aware relational data generation and load
engine of the `plane-rl-gym` seeding application.

The definitions below are a shallow embedding of the TypeScript source:

* row generation (`generateRowsPromise`, `generateRows` and its
  foreign-table fan-out branch) from `index.ts`;
* deduplication by declared primary keys from `index.ts`;
* the column value generators `selectRandomForeignValue`,
  `stateNameGenerator` and `labelNameGenerator` from `generators.ts`;
* `resetDatabase` from `index.ts`;
* `detectCycle` and `getTableOrderForOperations` from `constructGraph.ts`.

Asynchronous functions are modelled as pure functions (the program is
single-threaded and each awaited step completes before the next starts);
`Math.random()` calls are modelled by explicit rational parameters in
`[0, 1)`; file-system reads of snapshot files are modelled by explicit
snapshot arguments.
-/

set_option maxHeartbeats 1000000

namespace Seeding

/-- One column of an introspected table, mirroring the `Column` interface of
`types.ts` (`column_name`, `data_type`, `is_nullable`, `column_default`,
`character_maximum_length`). -/
structure DbColumn where
  column_name : String
  data_type : String
  is_nullable : String
  column_default : Option String
  character_maximum_length : Option Int
deriving DecidableEq, Repr

/-- A foreign key constraint, mirroring the `ForeignKey` interface of
`types.ts`. -/
structure DbForeignKey where
  constraint_name : String
  column_name : String
  foreign_table_name : String
  foreign_column_name : String
deriving DecidableEq, Repr

/-- The schema of one table, mirroring the `TableSchema` interface of
`types.ts`. -/
structure TableSchema where
  columns : List DbColumn
  foreignKeys : List DbForeignKey
deriving DecidableEq, Repr

/-- A row under construction: a JavaScript object mapping column names to
values, modelled as an association list (first binding wins on lookup; the
construction below never creates duplicate keys, mirroring object key
semantics).  `V` is the type of column values. -/
abbrev Row (V : Type) : Type := List (String × V)

/-- Lookup of `row[k]`; `none` models the JavaScript `undefined`. -/
def lookupRow {V : Type} (row : Row V) (k : String) : Option V :=
  (row.find? (fun p => p.1 == k)).map (fun p => p.2)

/-- Assignment `row[k] = v` on a JavaScript object: replaces the existing
binding in place, or appends a new binding at the end (object insertion
order). -/
def setCol {V : Type} : Row V → String → V → Row V
  | [], k, v => [(k, v)]
  | p :: rest, k, v => if p.1 == k then (k, v) :: rest else p :: setCol rest k v

/-- The keys currently present in a row. -/
def rowKeys {V : Type} (row : Row V) : List String :=
  row.map (fun p => p.1)

/-- The argument record passed to every column value generator, mirroring
`ColumnValueGeneratorParams` of `types.ts`. -/
structure GenContext (V : Type) where
  currentRow : Row V
  columnSchema : DbColumn
  tableSchema : TableSchema
  tableData : List (Row V)
  foreignRow : Option (Row V)

/-- A column value generator (`ColumnValueGenerator` of `types.ts`).  The
source functions are `async`; since every awaited step completes before the
next generator runs, they are modelled as pure functions. -/
def Generator (V : Type) : Type := GenContext V → V

/-- The `generateRowsPromise` function of `index.ts`: iterate over the
configured column generators in declared order; for each column that exists
in the introspected table schema, run its generator on the current partial
row and assign the result; columns absent from the schema are skipped. -/
def generateRowsPromise {V : Type} (ts : TableSchema)
    (cols : List (String × Generator V)) (row : Row V)
    (rows : List (Row V)) (foreignRow : Option (Row V)) : Row V :=
  match cols with
  | [] => row
  | (name, gen) :: rest =>
    match ts.columns.find? (fun c => c.column_name == name) with
    | some cs =>
        generateRowsPromise ts rest
          (setCol row name (gen ⟨row, cs, ts, rows, foreignRow⟩)) rows foreignRow
    | none => generateRowsPromise ts rest row rows foreignRow

/-- One recorded generator invocation: the column being generated, the
`currentRow` the generator received, and the value it returned. -/
structure GenCall (V : Type) where
  column : String
  ctxRow : Row V
  value : V

/-- Instrumented version of `generateRowsPromise` that additionally records
every generator invocation in order.  `generateRowsTraced_fst` below proves
that its first component is exactly `generateRowsPromise`. -/
def generateRowsTraced {V : Type} (ts : TableSchema)
    (cols : List (String × Generator V)) (row : Row V)
    (rows : List (Row V)) (foreignRow : Option (Row V)) :
    Row V × List (GenCall V) :=
  match cols with
  | [] => (row, [])
  | (name, gen) :: rest =>
    match ts.columns.find? (fun c => c.column_name == name) with
    | some cs =>
        let v := gen ⟨row, cs, ts, rows, foreignRow⟩
        let r := generateRowsTraced ts rest (setCol row name v) rows foreignRow
        (r.1, ⟨name, row, v⟩ :: r.2)
    | none => generateRowsTraced ts rest row rows foreignRow

/-- Replay a list of `(column, value)` assignments onto a row. -/
def applyAssigns {V : Type} (row : Row V) (l : List (String × V)) : Row V :=
  l.foldl (fun r p => setCol r p.1 p.2) row

/-- The configured columns that actually exist in the table schema, in
declared order: exactly those whose generator `generateRowsPromise` runs. -/
def effectiveCols {V : Type} (ts : TableSchema)
    (cols : List (String × Generator V)) : List String :=
  (cols.filter (fun p => (ts.columns.find? (fun c => c.column_name == p.1)).isSome)).map
    (fun p => p.1)

/-- Whether two rows agree on every declared primary-key column
(`primaryKeys.every(key => t[key] === row[key])` in `index.ts`). -/
def rowsMatchOn {V : Type} [DecidableEq V] (pks : List String)
    (t row : Row V) : Bool :=
  pks.all (fun k => lookupRow t k == lookupRow row k)

/-- The deduplication filter of `generateRows` in `index.ts`:
`rows.filter((row, index, self) => index === self.findIndex(t =>
primaryKeys.every(key => t[key] === row[key])))`.  A row survives iff its
index equals the index of the first row matching it on all primary keys. -/
def dedupByPrimaryKeys {V : Type} [DecidableEq V] (pks : List String)
    (rows : List (Row V)) : List (Row V) :=
  ((rows.enum).filter
    (fun p => rows.findIdx? (fun t => rowsMatchOn pks t p.2) == some p.1)).map
    (fun p => p.2)

/-- The `selectRandomForeignValue` generator of `generators.ts`.  The
snapshot file of the referenced table is modelled by `snapshot` (`none` when
the file does not exist, otherwise the parsed row array); the destination
column's nullability is `isNullable` (`params.columnSchema.is_nullable`);
`r` models the `Math.random()` draw.  Errors thrown in the source become
`Except.error` with the source's message prefix. -/
def selectRandomForeignValue {V : Type} (snapshot : Option (List (Row V)))
    (columnName : String) (isNullable : String) (r : ℚ) :
    Except String (Option V) :=
  match snapshot with
  | none =>
    if isNullable == "NO" then Except.error "File not found"
    else Except.ok none
  | some tableData =>
    if 0 < tableData.length then
      Except.ok ((tableData.get? (Int.floor (r * tableData.length)).toNat).bind
        (fun row => lookupRow row columnName))
    else if isNullable == "NO" then Except.error "No rows found in file"
    else Except.ok none

/-- The `STATES` candidate domain of `generators.ts`. -/
def STATES : List String := ["Cancelled", "In Progress", "Backlog", "Done", "Todo"]

/-- The `LABELS` candidate domain of `generators.ts`. -/
def LABELS : List String :=
  ["Bug", "Feature", "Task", "Story", "Epic", "Sub-task", "Improvement",
   "Documentation", "Chore", "Test", "Release"]

/-- One invocation of the closure returned by `stateNameGenerator` in
`generators.ts`.  The closure's captured mutable map
`projectGeneratedStatesLookup` is threaded explicitly as `lookup`
(an association list, mirroring object insertion order); `projectId` is
`params.currentRow.project_id` and `r` models the `Math.random()` draw.
Returns the generated value (`none` models `undefined` when the domain is
exhausted) together with the updated captured map. -/
def stateNameGeneratorStep (lookup : List (String × List String))
    (projectId : String) (r : ℚ) :
    Option String × List (String × List String) :=
  let lookup2 :=
    if ((lookup.find? (fun p => p.1 == projectId)).isNone) then
      lookup ++ [(projectId, [])]
    else lookup
  let existingStates :=
    (((lookup2.find? (fun p => p.1 == projectId)).map (fun p => p.2)).getD [])
  let availableStates := STATES.filter (fun s => !(existingStates.contains s))
  (availableStates.get? (Int.floor (r * availableStates.length)).toNat, lookup2)

/-- One invocation of the closure returned by `labelNameGenerator` in
`generators.ts`; same shape as `stateNameGeneratorStep` with the `LABELS`
domain and the captured map `labelGeneratedNamesLookup`. -/
def labelNameGeneratorStep (lookup : List (String × List String))
    (projectId : String) (r : ℚ) :
    Option String × List (String × List String) :=
  let lookup2 :=
    if ((lookup.find? (fun p => p.1 == projectId)).isNone) then
      lookup ++ [(projectId, [])]
    else lookup
  let existingLabels :=
    (((lookup2.find? (fun p => p.1 == projectId)).map (fun p => p.2)).getD [])
  let availableLabels := LABELS.filter (fun s => !(existingLabels.contains s))
  (availableLabels.get? (Int.floor (r * availableLabels.length)).toNat, lookup2)

/-- `countPerEntry` of a `foreignTable` row generation config
(`RowGenerationConfig` in `types.ts`): a fixed number or a `{min, max}`
range. -/
inductive CountPerEntry : Type where
  | fixed (k : Int)
  | range (min max : Int)
deriving DecidableEq, Repr

/-- The per-parent row count computed inside `generateRows`:
`Math.floor(Math.random() * (count.max - count.min + 1)) + count.min` for a
range (with `r` the `Math.random()` draw), the number itself when fixed
(no random draw is consumed then). -/
def entryCount (cpe : CountPerEntry) (r : ℚ) : Int :=
  match cpe with
  | CountPerEntry.fixed k => k
  | CountPerEntry.range mn mx => Int.floor (r * ((mx : ℚ) - mn + 1)) + mn

/-- The `foreignRowLookup` object built by `generateRows`:
`foreignTableData.reduce((acc, row) => { acc[row[foreignColumn]] = row;
return acc; }, {})`.  Keys are the (possibly absent, hence `Option`) values
of the parent key column; a later row with the same key replaces the stored
row but keeps the key's original position, mirroring object assignment. -/
def buildLookup {V : Type} [DecidableEq V] (foreignColumn : String)
    (rows : List (Row V)) : List (Option V × Row V) :=
  rows.foldl
    (fun acc row =>
      let k := lookupRow row foreignColumn
      if acc.any (fun p => p.1 == k) then
        acc.map (fun p => if p.1 == k then (p.1, row) else p)
      else acc ++ [(k, row)])
    []

/-- The child row seeded for one parent key:
`{ [rowGeneration.tableColumn]: foreignValue }`.  (When the parent key
column is absent, the source would key the row by the string `undefined`;
that degenerate case is modelled by an empty seed row and is unreachable in
the claims, which assume the parent key column exists.) -/
def initRow {V : Type} (tableColumn : String) (k : Option V) : Row V :=
  match k with
  | some v => [(tableColumn, v)]
  | none => []

/-- The inner `for (let i = 0; i < count; i++)` loop of the sequential
foreign-table branch of `generateRows`: build `n` rows for parent key `k`
(with matched parent row `fr`), pushing each onto the accumulated `rows`
array, which each `generateRowsPromise` call receives as `tableData`. -/
def genRowsForParent {V : Type} (ts : TableSchema)
    (cols : List (String × Generator V)) (tableColumn : String)
    (k : Option V) (fr : Row V) : ℕ → List (Row V) → List (Row V)
  | 0, acc => acc
  | n + 1, acc =>
      genRowsForParent ts cols tableColumn k fr n
        (acc ++ [generateRowsPromise ts cols (initRow tableColumn k) acc (some fr)])

/-- The rows appended by `genRowsForParent` (its block for one parent key);
`genRowsForParent_eq_append` proves `genRowsForParent ... n acc =
acc ++ blockForParent ... n acc`. -/
def blockForParent {V : Type} (ts : TableSchema)
    (cols : List (String × Generator V)) (tableColumn : String)
    (k : Option V) (fr : Row V) : ℕ → List (Row V) → List (Row V)
  | 0, _ => []
  | n + 1, acc =>
      let row := generateRowsPromise ts cols (initRow tableColumn k) acc (some fr)
      row :: blockForParent ts cols tableColumn k fr n (acc ++ [row])

/-- The outer `for (const foreignValue of uniqueForeignValues)` loop of the
sequential foreign-table branch of `generateRows`.  `entries` is the
remaining part of `foreignRowLookup`, `i` counts parents already processed
(indexing the `Math.random()` draw `rand i` consumed for a ranged
`countPerEntry`), `acc` is the `rows` array so far. -/
def genRowsForeignSeq {V : Type} (ts : TableSchema)
    (cols : List (String × Generator V)) (tableColumn : String)
    (cpe : CountPerEntry) (rand : ℕ → ℚ) :
    List (Option V × Row V) → ℕ → List (Row V) → List (Row V)
  | [], _, acc => acc
  | (k, fr) :: rest, i, acc =>
      genRowsForeignSeq ts cols tableColumn cpe rand rest (i + 1)
        (genRowsForParent ts cols tableColumn k fr (entryCount cpe (rand i)).toNat acc)

/-- The per-parent blocks of rows produced by `genRowsForeignSeq`, in parent
order; `genRowsForeignSeq_eq_join` proves the sequential fan-out output is
exactly the concatenation of these blocks. -/
def fanOutBlocksSeq {V : Type} (ts : TableSchema)
    (cols : List (String × Generator V)) (tableColumn : String)
    (cpe : CountPerEntry) (rand : ℕ → ℚ) :
    List (Option V × Row V) → ℕ → List (Row V) → List (List (Row V))
  | [], _, _ => []
  | (k, fr) :: rest, i, acc =>
      let blk := blockForParent ts cols tableColumn k fr (entryCount cpe (rand i)).toNat acc
      blk :: fanOutBlocksSeq ts cols tableColumn cpe rand rest (i + 1) (acc ++ blk)

/-- The per-parent blocks of the concurrent foreign-table branch of
`generateRows`: one generation task per row, all issued before any result
is pushed, so every `generateRowsPromise` call sees an empty `rows` array
as `tableData` (the pushes happen only after `Promise.all` resolves). -/
def fanOutBlocksConc {V : Type} (ts : TableSchema)
    (cols : List (String × Generator V)) (tableColumn : String)
    (cpe : CountPerEntry) (rand : ℕ → ℚ) :
    List (Option V × Row V) → ℕ → List (List (Row V))
  | [], _ => []
  | (k, fr) :: rest, i =>
      (List.range (entryCount cpe (rand i)).toNat).map
        (fun _ => generateRowsPromise ts cols (initRow tableColumn k) [] (some fr)) ::
      fanOutBlocksConc ts cols tableColumn cpe rand rest (i + 1)

/-- The `foreignTable` branch of `generateRows` in `index.ts`: build the
parent lookup from the parent table's snapshot, then generate
`countPerEntry` rows per distinct parent key value, sequentially or
concurrently according to `concurrent`. -/
def generateRowsForeign {V : Type} [DecidableEq V] (ts : TableSchema)
    (cols : List (String × Generator V)) (foreignColumn tableColumn : String)
    (cpe : CountPerEntry) (concurrent : Bool)
    (foreignTableData : List (Row V)) (rand : ℕ → ℚ) : List (Row V) :=
  let entries := buildLookup foreignColumn foreignTableData
  if concurrent then
    (fanOutBlocksConc ts cols tableColumn cpe rand entries 0).flatten
  else
    genRowsForeignSeq ts cols tableColumn cpe rand entries 0 []

/-- A row generation configuration (`RowGenerationConfig` of `types.ts`):
`static{count}` or `foreignTable{tableName, foreignColumn, tableColumn,
countPerEntry}`. -/
inductive RowGeneration : Type where
  | static (count : ℕ)
  | foreignTable (tableName foreignColumn tableColumn : String)
      (countPerEntry : CountPerEntry)

/-- The `static` branch of `generateRows`: `count` independent rows, each
starting from an empty row with no parent row; sequentially each call sees
the rows generated so far, concurrently every call sees an empty array. -/
def generateRowsStatic {V : Type} (ts : TableSchema)
    (cols : List (String × Generator V)) (concurrent : Bool) :
    ℕ → List (Row V) → List (Row V)
  | 0, acc => acc
  | n + 1, acc =>
      if concurrent then
        acc ++ (List.range (n + 1)).map
          (fun _ => generateRowsPromise ts cols [] [] none)
      else
        generateRowsStatic ts cols concurrent n
          (acc ++ [generateRowsPromise ts cols [] acc none])

/-- The row-production part of `generateRows` (the generated `rows` array
before deduplication), dispatching on the row generation mode.
`snapshots` models the directory of previously written per-table snapshot
files read by `getTableData`. -/
def generateRowsRaw {V : Type} [DecidableEq V] (ts : TableSchema)
    (cols : List (String × Generator V)) (rg : RowGeneration)
    (concurrent : Bool) (snapshots : String → List (Row V))
    (rand : ℕ → ℚ) : List (Row V) :=
  match rg with
  | RowGeneration.static n => generateRowsStatic ts cols concurrent n []
  | RowGeneration.foreignTable tn fc tc cpe =>
      generateRowsForeign ts cols fc tc cpe concurrent (snapshots tn) rand

/-- The `generateRows` function of `index.ts` for an active seed config:
generate the rows, then, when `primaryKeys` is declared, keep only the
first row per primary-key combination.  The returned list models the
snapshot written to the table's JSON file. -/
def generateRows {V : Type} [DecidableEq V] (ts : TableSchema)
    (cols : List (String × Generator V)) (rg : RowGeneration)
    (concurrent : Bool) (primaryKeys : Option (List String))
    (snapshots : String → List (Row V)) (rand : ℕ → ℚ) : List (Row V) :=
  let rows := generateRowsRaw ts cols rg concurrent snapshots rand
  match primaryKeys with
  | some pks => dedupByPrimaryKeys pks rows
  | none => rows

/-- The events a `resetDatabase` run can issue against the database, with
the queries of `index.ts`: `SET session_replication_role = replica`,
`TRUNCATE TABLE "t" CASCADE`, and `SET session_replication_role = DEFAULT`. -/
inductive ResetEvent : Type where
  | setReplica
  | truncate (t : String)
  | setDefault
deriving DecidableEq, Repr

/-- The part of a `SeedConfig` that `resetDatabase` consults: the table
name and the `skip_import` flag (absent in the source means `undefined`,
i.e. falsy, modelled as `false`). -/
structure SeedCfg : Type where
  tableName : String
  skip_import : Bool
deriving DecidableEq, Repr

/-- JavaScript `s.includes(sub)` for the constant substring check
`tableName.includes('transaction_log')`. -/
def jsIncludes (s sub : String) : Bool :=
  decide ((s.splitOn sub).length ≠ 1)

/-- Whether `resetDatabase` truncates table `t`: the loop body `continue`s
when `(!seedConfig || seedConfig.skip_import) &&
!tableName.includes('transaction_log')`. -/
def resetEligible (cfgs : List SeedCfg) (t : String) : Bool :=
  let sc := cfgs.find? (fun c => c.tableName == t)
  !((sc.isNone || ((sc.map (fun c => c.skip_import)).getD false)) && !(jsIncludes t "transaction_log"))

/-- The truncation loop of `resetDatabase`.  `ok` is the success oracle for
issued queries (indexed by issue order, `idx` being the next index); each
issued `TRUNCATE` is appended to the trace with its outcome; a failed
truncation is caught and logged, so the loop never throws and the session
mode is unaffected. -/
def truncateLoop (cfgs : List SeedCfg) (ok : ℕ → Bool) :
    List String → ℕ → List (ResetEvent × Bool) → ℕ × List (ResetEvent × Bool)
  | [], idx, tr => (idx, tr)
  | t :: rest, idx, tr =>
    if resetEligible cfgs t then
      truncateLoop cfgs ok rest (idx + 1) (tr ++ [(ResetEvent.truncate t, ok idx)])
    else
      truncateLoop cfgs ok rest idx tr

/-- The `resetDatabase` function of `index.ts`, as a trace semantics:
reverse the insertion order; issue `SET session_replication_role = replica`;
truncate each eligible table (failures caught per table); issue
`SET session_replication_role = DEFAULT`.  If the suspend or restore query
throws, the outer catch issues one more restore attempt (its own failure
caught and logged) and rethrows.  Returns whether the call propagates an
error, together with the trace of issued queries and their outcomes. -/
def resetDatabase (cfgs : List SeedCfg) (insertOrder : List String)
    (ok : ℕ → Bool) : Bool × List (ResetEvent × Bool) :=
  let resetOrder := insertOrder.reverse
  if ok 0 then
    let r := truncateLoop cfgs ok resetOrder 1 [(ResetEvent.setReplica, true)]
    if ok r.1 then (false, r.2 ++ [(ResetEvent.setDefault, true)])
    else
      (true, r.2 ++ [(ResetEvent.setDefault, false), (ResetEvent.setDefault, ok (r.1 + 1))])
  else
    (true, [(ResetEvent.setReplica, false), (ResetEvent.setDefault, ok 1)])

/-- The session's constraint-enforcement mode after a trace of queries:
`true` means suspended (`replica`).  Only successful `SET` queries change
the mode. -/
def modeAfter (tr : List (ResetEvent × Bool)) : Bool :=
  tr.foldl
    (fun m e =>
      if e.2 then
        match e.1 with
        | ResetEvent.setReplica => true
        | ResetEvent.setDefault => false
        | ResetEvent.truncate _ => m
      else m)
    false

/-- A node of the dependency graph (`TableNode` in `constructGraph.ts`). -/
structure TableNode : Type where
  name : String
  dependencies : List String
  dependents : List String
deriving DecidableEq, Repr

/-- A dependency graph (`DependencyGraph = Record<string, TableNode>` in
`constructGraph.ts`), modelled as the list of nodes in object insertion
order; representable records have pairwise distinct names. -/
abbrev Graph : Type := List TableNode

/-- `Object.keys(graph)`: the table names in insertion order. -/
def graphKeys (g : Graph) : List String :=
  g.map (fun n => n.name)

/-- `graph[t]` as an option. -/
def findNode (g : Graph) (t : String) : Option TableNode :=
  g.find? (fun n => n.name == t)

/-- `graph[t].dependencies`; a missing key (on which the source would
throw a `TypeError`) yields `[]`, which is unreachable on the closed graphs
all claims quantify over. -/
def depsOf (g : Graph) (t : String) : List String :=
  ((findNode g t).map (fun n => n.dependencies)).getD []

/-- `graph[t].dependents`, with the same missing-key convention as
`depsOf`. -/
def dependentsOf (g : Graph) (t : String) : List String :=
  ((findNode g t).map (fun n => n.dependents)).getD []

/-- The edge relation of the dependency graph: `edge g a b` holds when
table `a` depends on table `b` (there is a non-nullable foreign key from
`a` to `b`). -/
def edge (g : Graph) (a b : String) : Prop :=
  b ∈ depsOf g a

instance (g : Graph) (a b : String) : Decidable (edge g a b) := by
  unfold edge
  infer_instance

mutual

/-- The recursive `dfs` of `detectCycle` in `constructGraph.ts`, with the
closure's mutable sets made explicit: `visiting` is passed downward (the
source restores it on every non-cycle return, and on a cycle return every
frame returns immediately, so its net mutation is never observed);
`visited` is threaded through and returned (`Set` insertion order =
append).  `fuel` is a termination device only: recursion depth is bounded
by the number of graph keys not yet in `visiting`, and every lemma below
assumes fuel above that bound, under which the fuel-exhausted branch is
unreachable. -/
def dfsVisit (g : Graph) :
    ℕ → String → List String → List String → List String →
    Option (List String) × List String
  | 0, _, _, _, visited => (none, visited)
  | fuel + 1, table, path, visiting, visited =>
    if table ∈ visiting then (some (path ++ [table]), visited)
    else if table ∈ visited then (none, visited)
    else
      match dfsList g fuel (depsOf g table) (path ++ [table]) (table :: visiting) visited with
      | (some c, vd) => (some c, vd)
      | (none, vd) => (none, vd ++ [table])
termination_by fuel _ _ _ _ => (fuel, 0)

/-- The `for (const dep of graph[table].dependencies)` loop of `dfs`:
recurse into each dependency in order, returning the first cycle found,
threading the `visited` set. -/
def dfsList (g : Graph) :
    ℕ → List String → List String → List String → List String →
    Option (List String) × List String
  | _, [], _, _, visited => (none, visited)
  | fuel, d :: rest, path, visiting, visited =>
    match dfsVisit g fuel d path visiting visited with
    | (some c, vd) => (some c, vd)
    | (none, vd) => dfsList g fuel rest path visiting vd
termination_by fuel ds _ _ _ => (fuel, ds.length + 1)

end

/-- The top-level loop of `detectCycle`: run `dfs` from every key in turn
(with the `visiting` set empty, as the source's restore discipline
guarantees), threading the `visited` set; return the first cycle found. -/
def detectCycleGo (g : Graph) : List String → List String → Option (List String)
  | [], _ => none
  | t :: rest, visited =>
    match dfsVisit g (g.length + 1) t [] [] visited with
    | (some c, _) => some c
    | (none, vd) => detectCycleGo g rest vd

/-- The `detectCycle` function of `constructGraph.ts`. -/
def detectCycle (g : Graph) : Option (List String) :=
  detectCycleGo g (graphKeys g) []

/-- The `inDegree` record of `getTableOrderForOperations`:
`inDegree[tableName] = graph[tableName].dependencies.length` for every key
(a `Record` iteration; keys of a representable graph are distinct). -/
def initInDegree (g : Graph) : List (String × Int) :=
  g.map (fun n => (n.name, (n.dependencies.length : Int)))

/-- Lookup in the `inDegree` record. -/
def lookupDeg (deg : List (String × Int)) (d : String) : Option Int :=
  (deg.find? (fun p => p.1 == d)).map (fun p => p.2)

/-- `inDegree[dependent]--`: decrement the entry for `d` (a no-op when the
key is absent; the source would then produce `NaN`, which never compares
equal to `0`, so the absent-key behaviour of the subsequent push test is
preserved). -/
def updateDeg (deg : List (String × Int)) (d : String) : List (String × Int) :=
  deg.map (fun p => if p.1 == d then (p.1, p.2 - 1) else p)

/-- The body of the inner `for (const dependent of graph[table].dependents)`
loop of Kahn's algorithm: decrement each dependent's in-degree in turn and
collect (in order, onto `ps`) those whose in-degree reaches exactly `0`, to
be enqueued. -/
def processDependentsGo : List (String × Int) → List String → List String →
    List (String × Int) × List String
  | deg, ps, [] => (deg, ps)
  | deg, ps, d :: rest =>
    let dg := updateDeg deg d
    if lookupDeg dg d == some 0 then processDependentsGo dg (ps ++ [d]) rest
    else processDependentsGo dg ps rest

/-- The inner dependent loop of Kahn's algorithm, started with an empty
pushed list. -/
def processDependents (deg : List (String × Int)) (ds : List String) :
    List (String × Int) × List String :=
  processDependentsGo deg [] ds

/-- Sum of the positive parts of the in-degree record, the termination
measure of the Kahn loop. -/
def degSum (deg : List (String × Int)) : ℕ :=
  (deg.map (fun p => p.2.toNat)).sum

/-- The surviving `(index, row)` pairs of the deduplication filter, before
projecting away the index: `dedupByPrimaryKeys = map snd ∘ dedupSurvivors`
(`dedupByPrimaryKeys_eq_map`). -/
def dedupSurvivors {V : Type} [DecidableEq V] (pks : List String)
    (rows : List (Row V)) : List (ℕ × Row V) :=
  (rows.enum).filter
    (fun p => rows.findIdx? (fun t => rowsMatchOn pks t p.2) == some p.1)

/-- Concrete one-row snapshot used by the C8 witness. -/
def snapW8 : Option (List (Row ℕ)) := some [[("id", 7)]]

/-- Two-column table schema used by the C9 and C10 witnesses. -/
def tsW9 : TableSchema :=
  ⟨[⟨"a", "integer", "NO", none, none⟩, ⟨"b", "integer", "NO", none, none⟩], []⟩

/-- Column generators for the C9 witness: `b` reads the value the `a`
generator assigned earlier on the same row. -/
def colsW9 : List (String × Generator ℕ) :=
  [("a", fun _ => 5), ("b", fun ctx => (lookupRow ctx.currentRow "a").getD 0 + 1)]

/-- A generator map whose single column does not exist in `tsW9`, for the
C10 witness. -/
def colsW10 : List (String × Generator ℕ) := [("zz", fun _ => 9)]

/-- Concrete rows used by the C4 witness: the first two rows collide on the
primary key `a`. -/
def rowsW4 : List (Row ℕ) :=
  [[("a", 1), ("b", 1)], [("a", 1), ("b", 2)], [("a", 2)]]

/-- Table schema used by the C5 counterexample (the fan-out column
`workspace_id` exists in the schema, mirroring the `projects` table). -/
def tsW5 : TableSchema := ⟨[⟨"workspace_id", "uuid", "NO", none, none⟩], []⟩

/-- Columns map of the C5 counterexample: it also declares a generator for
the fan-out column itself, as the `projects` seed config does with
`workspace_id: selectRandomForeignValue('workspaces', 'id')`. -/
def colsW5 : List (String × Generator String) :=
  [("workspace_id", fun _ => "OTHER")]

/-- Number of graph keys not yet on the `visiting` stack: the bound on the
remaining recursion depth of `dfsVisit`. -/
def freeKeys (g : Graph) (visiting : List String) : ℕ :=
  (graphKeys g).countP (fun x => decide (x ∉ visiting))

/-- A `visited` list in DFS completion order: every entry's dependencies
appear strictly earlier in the list. -/
def DepsClosedList (g : Graph) (vl : List String) : Prop :=
  ∀ i (hi : i < vl.length), ∀ d ∈ depsOf g (vl.get ⟨i, hi⟩), d ∈ vl.take i

/-- A cyclic dependency graph: `a` depends on `b`, and `b` and `c` depend
on each other. -/
def gcex : Graph :=
  [⟨"a", ["b"], []⟩, ⟨"b", ["c"], ["a", "c"]⟩, ⟨"c", ["b"], ["b"]⟩]

/-- An acyclic three-table chain: states → projects → workspaces. -/
def gchain : Graph :=
  [⟨"workspaces", [], ["projects"]⟩,
   ⟨"projects", ["workspaces"], ["states"]⟩,
   ⟨"states", ["projects"], []⟩]

theorem updateDeg_cons (p : String × Int) (rest : List (String × Int)) (d : String) :
    updateDeg (p :: rest) d =
      (if p.1 == d then (p.1, p.2 - 1) else p) :: updateDeg rest d := rfl

theorem degSum_cons (p : String × Int) (rest : List (String × Int)) :
    degSum (p :: rest) = p.2.toNat + degSum rest := by
  simp [degSum]

theorem lookupDeg_cons_pos (p : String × Int) (rest : List (String × Int))
    (d : String) (h : p.1 = d) : lookupDeg (p :: rest) d = some p.2 := by
  unfold lookupDeg
  rw [List.find?_cons_of_pos _ (by simpa using h)]
  rfl

theorem lookupDeg_cons_neg (p : String × Int) (rest : List (String × Int))
    (d : String) (h : ¬ p.1 = d) : lookupDeg (p :: rest) d = lookupDeg rest d := by
  unfold lookupDeg
  rw [List.find?_cons_of_neg _ (by simpa using h)]

theorem lookupDeg_updateDeg_self (deg : List (String × Int)) (d : String) :
    lookupDeg (updateDeg deg d) d = (lookupDeg deg d).map (fun v => v - 1) := by
  induction deg with
  | nil => rfl
  | cons p rest ih =>
    by_cases hpd : p.1 = d
    · have hb : (p.1 == d) = true := by simpa using hpd
      rw [updateDeg_cons, if_pos hb]
      rw [lookupDeg_cons_pos (p.1, p.2 - 1) _ _ hpd, lookupDeg_cons_pos _ _ _ hpd]
      rfl
    · have hb : ¬ ((p.1 == d) = true) := by simpa using hpd
      rw [updateDeg_cons, if_neg hb, lookupDeg_cons_neg _ _ _ hpd,
        lookupDeg_cons_neg _ _ _ hpd]
      exact ih

theorem degSum_updateDeg_le (deg : List (String × Int)) (d : String) :
    degSum (updateDeg deg d) ≤ degSum deg := by
  induction deg with
  | nil => simp [degSum, updateDeg]
  | cons p rest ih =>
    rw [updateDeg_cons, degSum_cons, degSum_cons]
    have hp : (if p.1 == d then (p.1, p.2 - 1) else p).2.toNat ≤ p.2.toNat := by
      split
      · exact Int.toNat_le_toNat (by omega)
      · exact le_rfl
    omega

theorem degSum_updateDeg_push (deg : List (String × Int)) (d : String)
    (h : lookupDeg (updateDeg deg d) d = some 0) :
    degSum (updateDeg deg d) + 1 ≤ degSum deg := by
  rw [lookupDeg_updateDeg_self] at h
  have h1 : lookupDeg deg d = some 1 := by
    cases hv : lookupDeg deg d with
    | none => rw [hv] at h; simp at h
    | some v =>
      rw [hv] at h
      simp only [Option.map_some'] at h
      have hv1 : v = 1 := by
        have := Option.some.inj h
        omega
      rw [hv1]
  clear h
  induction deg with
  | nil => simp [lookupDeg] at h1
  | cons p rest ih =>
    by_cases hpd : p.1 = d
    · have hb : (p.1 == d) = true := by simpa using hpd
      have hp2 : p.2 = 1 := by
        rw [lookupDeg_cons_pos _ _ _ hpd] at h1
        exact Option.some.inj h1
      have hrest := degSum_updateDeg_le rest d
      rw [updateDeg_cons, if_pos hb, degSum_cons, degSum_cons, hp2]
      omega
    · have h2 : lookupDeg rest d = some 1 := by
        rw [lookupDeg_cons_neg _ _ _ hpd] at h1
        exact h1
      have hb : ¬ ((p.1 == d) = true) := by simpa using hpd
      have := ih h2
      rw [updateDeg_cons, if_neg hb, degSum_cons, degSum_cons]
      omega

theorem processDependentsGo_measure (ds : List String)
    (deg : List (String × Int)) (ps : List String) :
    (processDependentsGo deg ps ds).2.length +
      degSum (processDependentsGo deg ps ds).1 ≤ ps.length + degSum deg := by
  induction ds generalizing deg ps with
  | nil => simp [processDependentsGo]
  | cons d rest ih =>
    simp only [processDependentsGo]
    by_cases h : lookupDeg (updateDeg deg d) d = some 0
    · have hstep := degSum_updateDeg_push deg d h
      have hb : (lookupDeg (updateDeg deg d) d == some 0) = true := by simpa using h
      simp only [hb, if_true]
      calc _ ≤ (ps ++ [d]).length + degSum (updateDeg deg d) :=
            ih (updateDeg deg d) (ps ++ [d])
        _ ≤ ps.length + degSum deg := by simp; omega
    · have hstep := degSum_updateDeg_le deg d
      have hb : (lookupDeg (updateDeg deg d) d == some 0) = false := by simpa using h
      simp only [hb, if_false]
      calc _ ≤ ps.length + degSum (updateDeg deg d) := ih (updateDeg deg d) ps
        _ ≤ ps.length + degSum deg := by omega

theorem processDependents_measure_le (deg : List (String × Int)) (ds : List String) :
    (processDependents deg ds).2.length + degSum (processDependents deg ds).1 ≤
      degSum deg := by
  simpa using processDependentsGo_measure ds deg []

/-- The Kahn loop of `getTableOrderForOperations`: dequeue a table (the
source's `if (table)` guard skips a falsy, i.e. empty, name), append it to
the result, decrement its dependents' in-degrees and enqueue those reaching
zero. -/
def kahnLoop (g : Graph) (queue : List String) (deg : List (String × Int))
    (acc : List String) : List String :=
  match queue with
  | [] => acc
  | t :: rest =>
    if t = "" then kahnLoop g rest deg acc
    else
      kahnLoop g (rest ++ (processDependents deg (dependentsOf g t)).2)
        (processDependents deg (dependentsOf g t)).1 (acc ++ [t])
termination_by queue.length + degSum deg
decreasing_by
  · simp only [List.length_cons]
    omega
  · have := processDependents_measure_le deg (dependentsOf g t)
    simp only [List.length_append, List.length_cons]
    omega

/-- The `getTableOrderForOperations` function of `constructGraph.ts`: run
the cycle detector (its result is only logged and does not affect
the output), then Kahn's algorithm seeded with the zero-in-degree keys in
insertion order. -/
def getTableOrderForOperations (g : Graph) : List String :=
  let _cycleWarning := detectCycle g
  let deg := initInDegree g
  let queue := (graphKeys g).filter (fun t => lookupDeg deg t == some 0)
  kahnLoop g queue deg []

/-- A dependency graph in which every mentioned table is itself a key and
keys are distinct — the shape `buildTableDependencyGraph` always produces,
and the shape on which `detectCycle` / `getTableOrderForOperations` run
without a `TypeError`. -/
def ClosedGraph (g : Graph) : Prop :=
  (graphKeys g).Nodup ∧
  ∀ n ∈ g, (∀ d ∈ n.dependencies, d ∈ graphKeys g) ∧
    (∀ d ∈ n.dependents, d ∈ graphKeys g)

instance (g : Graph) : Decidable (ClosedGraph g) := by
  unfold ClosedGraph
  infer_instance

/-- A well-formed dependency graph as produced by
`buildTableDependencyGraph`: closed, with nonempty table names (table names
come from `information_schema` and are never empty), duplicate-free
dependency and dependent lists (the builder checks `includes` before every
push), and with the `dependencies` and `dependents` lists mirroring each
other. -/
def WellFormedGraph (g : Graph) : Prop :=
  ClosedGraph g ∧
  ∀ n ∈ g, n.name ≠ "" ∧ n.dependencies.Nodup ∧ n.dependents.Nodup ∧
    ∀ m ∈ g, (m.name ∈ n.dependencies ↔ n.name ∈ m.dependents)

instance (g : Graph) : Decidable (WellFormedGraph g) := by
  unfold WellFormedGraph
  infer_instance

/-- Acyclicity of the dependency graph: no table reaches itself through a
nonempty chain of dependency edges. -/
def Acyclic (g : Graph) : Prop :=
  ∀ t, ¬ Relation.TransGen (edge g) t t

theorem lookupRow_setCol_self {V : Type} (row : Row V) (k : String) (v : V) :
    lookupRow (setCol row k v) k = some v := by
  induction row with
  | nil =>
    unfold setCol lookupRow
    rw [List.find?_cons_of_pos _ (by simp)]
    rfl
  | cons p rest ih =>
    by_cases hpk : p.1 = k
    · have hb : (p.1 == k) = true := by simpa using hpk
      simp only [setCol, if_pos hb]
      unfold lookupRow
      rw [List.find?_cons_of_pos _ (by simp)]
      rfl
    · have hb : ¬ ((p.1 == k) = true) := by simpa using hpk
      simp only [setCol, if_neg hb]
      unfold lookupRow
      rw [List.find?_cons_of_neg _ (by simpa using hpk)]
      exact ih

theorem lookupRow_setCol_ne {V : Type} (row : Row V) (k k2 : String) (v : V)
    (h : k2 ≠ k) : lookupRow (setCol row k v) k2 = lookupRow row k2 := by
  induction row with
  | nil =>
    unfold setCol lookupRow
    rw [List.find?_cons_of_neg _ (by simpa using (Ne.symm h))]
  | cons p rest ih =>
    by_cases hpk : p.1 = k
    · have hb : (p.1 == k) = true := by simpa using hpk
      have hpk2 : ¬ p.1 = k2 := fun hc => h (by rw [← hc, hpk])
      simp only [setCol, if_pos hb]
      unfold lookupRow
      rw [List.find?_cons_of_neg _ (by simpa using (Ne.symm h)),
        List.find?_cons_of_neg _ (by simpa using hpk2)]
    · have hb : ¬ ((p.1 == k) = true) := by simpa using hpk
      simp only [setCol, if_neg hb]
      by_cases hpk2 : p.1 = k2
      · unfold lookupRow
        rw [List.find?_cons_of_pos _ (by simpa using hpk2),
          List.find?_cons_of_pos _ (by simpa using hpk2)]
      · unfold lookupRow
        rw [List.find?_cons_of_neg _ (by simpa using hpk2),
          List.find?_cons_of_neg _ (by simpa using hpk2)]
        exact ih

theorem rowKeys_setCol_mem {V : Type} (row : Row V) (k k2 : String) (v : V) :
    k2 ∈ rowKeys (setCol row k v) ↔ k2 = k ∨ k2 ∈ rowKeys row := by
  induction row with
  | nil => simp [setCol, rowKeys]
  | cons p rest ih =>
    by_cases hpk : p.1 = k
    · have hb : (p.1 == k) = true := by simpa using hpk
      simp only [setCol, if_pos hb, rowKeys, List.map_cons, List.mem_cons]
      constructor
      · rintro (h | h)
        · exact Or.inl h
        · exact Or.inr (Or.inr h)
      · rintro (h | h | h)
        · exact Or.inl h
        · exact Or.inl (by rw [h, hpk])
        · exact Or.inr h
    · have hb : ¬ ((p.1 == k) = true) := by simpa using hpk
      simp only [setCol, if_neg hb, rowKeys, List.map_cons, List.mem_cons] at *
      constructor
      · rintro (h | h)
        · exact Or.inr (Or.inl h)
        · rcases ih.mp h with h2 | h2
          · exact Or.inl h2
          · exact Or.inr (Or.inr h2)
      · rintro (h | h | h)
        · exact Or.inr (ih.mpr (Or.inl h))
        · exact Or.inl h
        · exact Or.inr (ih.mpr (Or.inr h))

theorem applyAssigns_nil {V : Type} (row : Row V) : applyAssigns row [] = row := rfl

theorem applyAssigns_cons {V : Type} (row : Row V) (p : String × V)
    (l : List (String × V)) :
    applyAssigns row (p :: l) = applyAssigns (setCol row p.1 p.2) l := rfl

theorem generateRowsTraced_fst {V : Type} (ts : TableSchema)
    (cols : List (String × Generator V)) (row : Row V) (rows : List (Row V))
    (fr : Option (Row V)) :
    (generateRowsTraced ts cols row rows fr).1 =
      generateRowsPromise ts cols row rows fr := by
  induction cols generalizing row with
  | nil => rfl
  | cons cg rest ih =>
    obtain ⟨name, gen⟩ := cg
    simp only [generateRowsTraced, generateRowsPromise]
    cases ts.columns.find? (fun c => c.column_name == name) with
    | none => exact ih row
    | some cs => exact ih (setCol row name (gen ⟨row, cs, ts, rows, fr⟩))

theorem generateRowsTraced_columns {V : Type} (ts : TableSchema)
    (cols : List (String × Generator V)) (row : Row V) (rows : List (Row V))
    (fr : Option (Row V)) :
    (generateRowsTraced ts cols row rows fr).2.map (fun e => e.column) =
      effectiveCols ts cols := by
  induction cols generalizing row with
  | nil => rfl
  | cons cg rest ih =>
    obtain ⟨name, gen⟩ := cg
    simp only [generateRowsTraced, effectiveCols]
    cases hf : ts.columns.find? (fun c => c.column_name == name) with
    | none =>
      rw [List.filter_cons_of_neg (by simp [hf])]
      exact ih row
    | some cs =>
      rw [List.filter_cons_of_pos (by simp [hf])]
      simp only [List.map_cons]
      have := ih (setCol row name (gen ⟨row, cs, ts, rows, fr⟩))
      simp only [effectiveCols] at this
      rw [this]

theorem generateRowsTraced_ctxRow {V : Type} (ts : TableSchema)
    (cols : List (String × Generator V)) (row : Row V) (rows : List (Row V))
    (fr : Option (Row V)) (k : ℕ)
    (hk : k < (generateRowsTraced ts cols row rows fr).2.length) :
    ((generateRowsTraced ts cols row rows fr).2.get ⟨k, hk⟩).ctxRow =
      applyAssigns row
        (((generateRowsTraced ts cols row rows fr).2.take k).map
          (fun e => (e.column, e.value))) := by
  induction cols generalizing row k with
  | nil => simp [generateRowsTraced] at hk
  | cons cg rest ih =>
    obtain ⟨name, gen⟩ := cg
    revert hk
    simp only [generateRowsTraced]
    cases hf : ts.columns.find? (fun c => c.column_name == name) with
    | none =>
      intro hk
      exact ih row k hk
    | some cs =>
      intro hk
      cases k with
      | zero => simp [applyAssigns_nil]
      | succ k2 =>
        simp only [List.length_cons, Nat.succ_lt_succ_iff] at hk
        simp only [List.get_cons_succ, List.take_succ_cons, List.map_cons,
          applyAssigns_cons]
        exact ih (setCol row name (gen ⟨row, cs, ts, rows, fr⟩)) k2 hk

/-- C9: within a single row built by `generateRowsPromise`, column
generators are invoked one at a time in the order the columns are declared
in the seed config's columns map (restricted to columns present in the
table schema), and the `currentRow` each invocation receives is exactly the
initial row plus the values assigned by all generators that ran earlier on
the same row. -/
theorem generateRowsPromise_column_order {V : Type} (ts : TableSchema)
    (cols : List (String × Generator V)) (row : Row V) (rows : List (Row V))
    (fr : Option (Row V)) :
    (generateRowsTraced ts cols row rows fr).1 =
      generateRowsPromise ts cols row rows fr ∧
    (generateRowsTraced ts cols row rows fr).2.map (fun e => e.column) =
      effectiveCols ts cols ∧
    ∀ k (hk : k < (generateRowsTraced ts cols row rows fr).2.length),
      ((generateRowsTraced ts cols row rows fr).2.get ⟨k, hk⟩).ctxRow =
        applyAssigns row
          (((generateRowsTraced ts cols row rows fr).2.take k).map
            (fun e => (e.column, e.value))) :=
  ⟨generateRowsTraced_fst ts cols row rows fr,
   generateRowsTraced_columns ts cols row rows fr,
   fun k hk => generateRowsTraced_ctxRow ts cols row rows fr k hk⟩

theorem mem_effectiveCols {V : Type} (ts : TableSchema)
    (cols : List (String × Generator V)) (x : String) :
    x ∈ effectiveCols ts cols ↔
      ∃ gen, (x, gen) ∈ cols ∧
        (ts.columns.find? (fun c => c.column_name == x)).isSome := by
  unfold effectiveCols
  constructor
  · intro h
    rcases List.mem_map.mp h with ⟨p, hp, hpx⟩
    rcases List.mem_filter.mp hp with ⟨hmem, hsome⟩
    refine ⟨p.2, ?_, ?_⟩
    · rw [← hpx]; exact hmem
    · rw [← hpx]; simpa using hsome
  · rintro ⟨gen, hmem, hsome⟩
    exact List.mem_map.mpr ⟨(x, gen), List.mem_filter.mpr ⟨hmem, by simpa using hsome⟩, rfl⟩

/-- C10: a configured column generator whose column name does not appear in
the table schema is never invoked by `generateRowsPromise` (it records no
trace entry), and the finished row has no entry for that column beyond what
the initial row already had — the configuration entry is silently skipped,
no error is raised. -/
theorem generateRowsPromise_skips_unknown_columns {V : Type} (ts : TableSchema)
    (cols : List (String × Generator V)) (row : Row V) (rows : List (Row V))
    (fr : Option (Row V)) (colName : String)
    (hmiss : ts.columns.find? (fun c => c.column_name == colName) = none) :
    (¬ ∃ e ∈ (generateRowsTraced ts cols row rows fr).2, e.column = colName) ∧
    lookupRow (generateRowsPromise ts cols row rows fr) colName =
      lookupRow row colName ∧
    (colName ∈ rowKeys (generateRowsPromise ts cols row rows fr) ↔
      colName ∈ rowKeys row) := by
  refine ⟨?_, ?_⟩
  · rintro ⟨e, he, hecol⟩
    have hx : colName ∈ (generateRowsTraced ts cols row rows fr).2.map (fun e => e.column) :=
      List.mem_map.mpr ⟨e, he, hecol⟩
    rw [generateRowsTraced_columns] at hx
    rcases (mem_effectiveCols ts cols colName).mp hx with ⟨gen, _, hsome⟩
    rw [hmiss] at hsome
    simp at hsome
  · induction cols generalizing row with
    | nil => exact ⟨rfl, Iff.rfl⟩
    | cons cg rest ih =>
      obtain ⟨name, gen⟩ := cg
      simp only [generateRowsPromise]
      cases hf : ts.columns.find? (fun c => c.column_name == name) with
      | none => exact ih row
      | some cs =>
        have hne : colName ≠ name := by
          intro heq
          rw [heq] at hmiss
          rw [hmiss] at hf
          exact Option.noConfusion hf
        have := ih (setCol row name (gen ⟨row, cs, ts, rows, fr⟩))
        refine ⟨?_, ?_⟩
        · rw [this.1, lookupRow_setCol_ne row name colName _ hne]
        · rw [this.2]
          rw [rowKeys_setCol_mem]
          simp [hne]

theorem rowsMatchOn_refl {V : Type} [DecidableEq V] (pks : List String)
    (r : Row V) : rowsMatchOn pks r r = true := by
  unfold rowsMatchOn
  rw [List.all_eq_true]
  intro k _
  simp

theorem rowsMatchOn_symm {V : Type} [DecidableEq V] (pks : List String)
    (a b : Row V) : rowsMatchOn pks a b = rowsMatchOn pks b a := by
  unfold rowsMatchOn
  congr 1
  funext k
  simp [BEq.comm]

theorem dedupByPrimaryKeys_eq_map {V : Type} [DecidableEq V]
    (pks : List String) (rows : List (Row V)) :
    dedupByPrimaryKeys pks rows = (dedupSurvivors pks rows).map (fun p => p.2) := rfl

theorem survivor_spec {V : Type} [DecidableEq V] (pks : List String)
    (rows : List (Row V)) (p : ℕ × Row V)
    (hp : p ∈ dedupSurvivors pks rows) :
    ∃ h : p.1 < rows.length, rows.get ⟨p.1, h⟩ = p.2 ∧
      ∀ j (hj : j < p.1),
        rowsMatchOn pks (rows.get ⟨j, Nat.lt_trans hj h⟩) p.2 = false := by
  rcases List.mem_filter.mp hp with ⟨hmem, hfind⟩
  have hfind2 : rows.findIdx? (fun t => rowsMatchOn pks t p.2) = some p.1 := by
    simpa using hfind
  rw [List.findIdx?_eq_some_iff_getElem] at hfind2
  obtain ⟨h, _, hmin⟩ := hfind2
  have hget : rows.get ⟨p.1, h⟩ = p.2 := by
    have hq := List.mk_mem_enum_iff_getElem?.mp (by exact hmem)
    rw [List.getElem?_eq_getElem h] at hq
    rw [List.get_eq_getElem]
    exact Option.some.inj hq
  refine ⟨h, hget, fun j hj => ?_⟩
  have hmj := hmin j hj
  rw [List.get_eq_getElem]
  simpa using hmj

theorem dedupSurvivors_nodup {V : Type} [DecidableEq V] (pks : List String)
    (rows : List (Row V)) : (dedupSurvivors pks rows).Nodup :=
  (List.filter_sublist _).nodup
    (List.Nodup.of_map Prod.fst (List.nodup_enum_map_fst rows))

/-- C4: with `primaryKeys` declared, `generateRows` filters the generated
rows through `dedupByPrimaryKeys`; afterwards (i) no two surviving rows
agree on all primary-key column values, (ii) every surviving row is the
first generated row carrying its primary-key combination, and (iii) a row
with no matching earlier row is never dropped. -/
theorem dedupByPrimaryKeys_correct {V : Type} [DecidableEq V]
    (pks : List String) (rows : List (Row V)) :
    (∀ (ts : TableSchema) (cols : List (String × Generator V))
        (rg : RowGeneration) (conc : Bool) (snaps : String → List (Row V))
        (rand : ℕ → ℚ),
      generateRows ts cols rg conc (some pks) snaps rand =
        dedupByPrimaryKeys pks (generateRowsRaw ts cols rg conc snaps rand)) ∧
    (∀ i j (hi : i < (dedupByPrimaryKeys pks rows).length)
        (hj : j < (dedupByPrimaryKeys pks rows).length), i ≠ j →
      rowsMatchOn pks ((dedupByPrimaryKeys pks rows).get ⟨i, hi⟩)
        ((dedupByPrimaryKeys pks rows).get ⟨j, hj⟩) = false) ∧
    (∀ r ∈ dedupByPrimaryKeys pks rows, ∃ i, ∃ hi : i < rows.length,
      rows.get ⟨i, hi⟩ = r ∧
      ∀ j (hj : j < rows.length), j < i →
        rowsMatchOn pks (rows.get ⟨j, hj⟩) r = false) ∧
    (∀ i (hi : i < rows.length),
      (∀ j (hj : j < rows.length), j < i →
        rowsMatchOn pks (rows.get ⟨j, hj⟩) (rows.get ⟨i, hi⟩) = false) →
      rows.get ⟨i, hi⟩ ∈ dedupByPrimaryKeys pks rows) := by
  refine ⟨fun ts cols rg conc snaps rand => rfl, ?_, ?_, ?_⟩
  · intro i j hi hj hij
    by_contra hM0
    rw [Bool.not_eq_false] at hM0
    have hi2 : i < (dedupSurvivors pks rows).length := by
      simpa [dedupByPrimaryKeys_eq_map] using hi
    have hj2 : j < (dedupSurvivors pks rows).length := by
      simpa [dedupByPrimaryKeys_eq_map] using hj
    have hM : rowsMatchOn pks ((dedupSurvivors pks rows)[i]).2
        ((dedupSurvivors pks rows)[j]).2 = true := by
      simpa [dedupByPrimaryKeys_eq_map, List.get_eq_getElem,
        List.getElem_map] using hM0
    obtain ⟨hbi, hgi, hmi⟩ := survivor_spec pks rows _
      (List.getElem_mem hi2)
    obtain ⟨hbj, hgj, hmj⟩ := survivor_spec pks rows _
      (List.getElem_mem hj2)
    have hidx : ((dedupSurvivors pks rows)[i]).1 = ((dedupSurvivors pks rows)[j]).1 := by
      rcases Nat.lt_trichotomy ((dedupSurvivors pks rows)[i]).1
        ((dedupSurvivors pks rows)[j]).1 with hlt | heq | hgt
      · have hc := hmj _ hlt
        rw [hgi] at hc
        rw [hc] at hM
        exact (Bool.false_ne_true hM).elim
      · exact heq
      · have hc := hmi _ hgt
        rw [hgj] at hc
        rw [rowsMatchOn_symm] at hM
        rw [hc] at hM
        exact (Bool.false_ne_true hM).elim
    have hval : ((dedupSurvivors pks rows)[i]).2 = ((dedupSurvivors pks rows)[j]).2 := by
      rw [← hgi, ← hgj]
      congr 1
      exact Fin.mk_eq_mk.mpr hidx
    have hPP : (dedupSurvivors pks rows)[i] = (dedupSurvivors pks rows)[j] :=
      Prod.ext hidx hval
    exact hij ((List.Nodup.getElem_inj_iff (dedupSurvivors_nodup pks rows)).mp hPP)
  · intro r hr
    rw [dedupByPrimaryKeys_eq_map] at hr
    rcases List.mem_map.mp hr with ⟨p, hp, hpr⟩
    obtain ⟨h1, h2, h3⟩ := survivor_spec pks rows p hp
    exact ⟨p.1, h1, by rw [h2, hpr], fun j hj hji => by
      have hc := h3 j hji
      rw [hpr] at hc
      exact hc⟩
  · intro i hi hfirst
    have hfind : rows.findIdx? (fun t => rowsMatchOn pks t (rows.get ⟨i, hi⟩)) = some i := by
      rw [List.findIdx?_eq_some_iff_getElem]
      refine ⟨hi, ?_, ?_⟩
      · have hrefl := rowsMatchOn_refl pks (rows.get ⟨i, hi⟩)
        rw [List.get_eq_getElem] at hrefl
        rw [List.get_eq_getElem]
        exact hrefl
      · intro j hji
        have hc := hfirst j (Nat.lt_trans hji hi) hji
        rw [List.get_eq_getElem] at hc
        simpa using hc
    have hmem : (i, rows.get ⟨i, hi⟩) ∈ rows.enum := by
      rw [List.mk_mem_enum_iff_getElem?]
      rw [List.getElem?_eq_getElem hi]
      rw [List.get_eq_getElem]
    rw [dedupByPrimaryKeys_eq_map]
    refine List.mem_map.mpr ⟨(i, rows.get ⟨i, hi⟩), List.mem_filter.mpr ⟨hmem, ?_⟩, rfl⟩
    simpa using hfind

/-- C6 (code bug): the closures returned by `stateNameGenerator` and
`labelNameGenerator` never record a returned value: one step of either
generator leaves every per-project used-value list unchanged (it at most
adds a new empty list for a previously unseen project), and consequently
two consecutive invocations for the same project can return the same
candidate — here both return the first domain element when the random draw
is `0`, and the per-project list is still empty afterwards. -/
theorem stateLabelGenerators_never_record :
    (∀ (st : List (String × List String)) (pid : String) (r : ℚ),
      (stateNameGeneratorStep st pid r).2 = st ∨
      (stateNameGeneratorStep st pid r).2 = st ++ [(pid, [])]) ∧
    (∀ (st : List (String × List String)) (pid : String) (r : ℚ),
      (labelNameGeneratorStep st pid r).2 = st ∨
      (labelNameGeneratorStep st pid r).2 = st ++ [(pid, [])]) ∧
    (stateNameGeneratorStep [] "p1" 0).1 = some "Cancelled" ∧
    (stateNameGeneratorStep (stateNameGeneratorStep [] "p1" 0).2 "p1" 0).1 =
      some "Cancelled" ∧
    (stateNameGeneratorStep (stateNameGeneratorStep [] "p1" 0).2 "p1" 0).2 =
      [("p1", [])] ∧
    (labelNameGeneratorStep [] "p1" 0).1 = some "Bug" ∧
    (labelNameGeneratorStep (labelNameGeneratorStep [] "p1" 0).2 "p1" 0).1 =
      some "Bug" := by
  have e1 : stateNameGeneratorStep [] "p1" 0 = (some "Cancelled", [("p1", [])]) := by
    unfold stateNameGeneratorStep
    norm_num [STATES]
  have e2 : stateNameGeneratorStep [("p1", [])] "p1" 0 =
      (some "Cancelled", [("p1", [])]) := by
    unfold stateNameGeneratorStep
    norm_num [STATES]
  have e3 : labelNameGeneratorStep [] "p1" 0 = (some "Bug", [("p1", [])]) := by
    unfold labelNameGeneratorStep
    norm_num [LABELS]
  have e4 : labelNameGeneratorStep [("p1", [])] "p1" 0 =
      (some "Bug", [("p1", [])]) := by
    unfold labelNameGeneratorStep
    norm_num [LABELS]
  refine ⟨?_, ?_, by rw [e1], by rw [e1]; rw [e2], by rw [e1]; rw [e2],
    by rw [e3], by rw [e3]; rw [e4]⟩
  · intro st pid r
    unfold stateNameGeneratorStep
    by_cases h : (st.find? (fun p => p.1 == pid)).isNone = true
    · right
      simp only [if_pos h]
    · left
      simp only [if_neg h]
  · intro st pid r
    unfold labelNameGeneratorStep
    by_cases h : (st.find? (fun p => p.1 == pid)).isNone = true
    · right
      simp only [if_pos h]
    · left
      simp only [if_neg h]

/-- C8: `selectRandomForeignValue` errors exactly when the snapshot is
absent or empty and the destination column is non-nullable; with an absent
or empty snapshot and a nullable destination column it returns `null`; and
on a nonempty snapshot it returns the named column of the row at the
sampled index. -/
theorem selectRandomForeignValue_spec {V : Type} [DecidableEq V]
    (snapshot : Option (List (Row V))) (columnName isNullable : String) (r : ℚ)
    (h0 : 0 ≤ r) (h1 : r < 1) :
    ((∃ e, selectRandomForeignValue snapshot columnName isNullable r =
        Except.error e) ↔
      ((snapshot = none ∨ snapshot = some []) ∧ isNullable = "NO")) ∧
    ((snapshot = none ∨ snapshot = some []) → isNullable ≠ "NO" →
      selectRandomForeignValue snapshot columnName isNullable r =
        Except.ok none) ∧
    (∀ d, snapshot = some d → d ≠ [] →
      ∃ i, ∃ hilt : i < d.length,
        selectRandomForeignValue snapshot columnName isNullable r =
          Except.ok (lookupRow (d.get ⟨i, hilt⟩) columnName)) := by
  have hidx : ∀ d : List (Row V), d ≠ [] →
      (Int.floor (r * (d.length : ℚ))).toNat < d.length := by
    intro d hd
    have hlen : 0 < d.length := List.length_pos.mpr hd
    have hlc : (0 : ℚ) < (d.length : ℚ) := by exact_mod_cast hlen
    have hub : r * (d.length : ℚ) < (d.length : ℚ) := by
      calc r * (d.length : ℚ) < 1 * (d.length : ℚ) :=
            mul_lt_mul_of_pos_right h1 hlc
        _ = (d.length : ℚ) := one_mul _
    have hfl : Int.floor (r * (d.length : ℚ)) < (d.length : ℤ) := by
      apply Int.floor_lt.mpr
      push_cast
      exact hub
    have hfl0 : (0 : ℤ) ≤ Int.floor (r * (d.length : ℚ)) :=
      Int.floor_nonneg.mpr (mul_nonneg h0 (le_of_lt hlc))
    omega
  cases snapshot with
  | none =>
    by_cases hN : isNullable = "NO"
    · have hb : (isNullable == "NO") = true := by simpa using hN
      have hres : selectRandomForeignValue (none : Option (List (Row V)))
          columnName isNullable r = Except.error "File not found" := by
        simp only [selectRandomForeignValue, if_pos hb]
      refine ⟨?_, ?_, ?_⟩
      · rw [hres]
        exact ⟨fun _ => ⟨Or.inl rfl, hN⟩, fun _ => ⟨"File not found", rfl⟩⟩
      · intro _ hcontra
        exact absurd hN hcontra
      · intro d hd
        exact Option.noConfusion hd
    · have hb : ¬ ((isNullable == "NO") = true) := by simpa using hN
      have hres : selectRandomForeignValue (none : Option (List (Row V)))
          columnName isNullable r = Except.ok none := by
        simp only [selectRandomForeignValue, if_neg hb]
      refine ⟨?_, ?_, ?_⟩
      · rw [hres]
        constructor
        · rintro ⟨e, he⟩
          exact Except.noConfusion he
        · rintro ⟨_, hNO⟩
          exact absurd hNO hN
      · intro _ _
        exact hres
      · intro d hd
        exact Option.noConfusion hd
  | some d =>
    by_cases hd : d = []
    · subst hd
      have hlen : ¬ (0 < ([] : List (Row V)).length) := by simp
      by_cases hN : isNullable = "NO"
      · have hb : (isNullable == "NO") = true := by simpa using hN
        have hres : selectRandomForeignValue (some ([] : List (Row V)))
            columnName isNullable r = Except.error "No rows found in file" := by
          simp only [selectRandomForeignValue, if_neg hlen, if_pos hb]
        refine ⟨?_, ?_, ?_⟩
        · rw [hres]
          exact ⟨fun _ => ⟨Or.inr rfl, hN⟩,
            fun _ => ⟨"No rows found in file", rfl⟩⟩
        · intro _ hcontra
          exact absurd hN hcontra
        · intro d2 hd2 hne
          rw [Option.some.inj hd2] at hne
          exact absurd rfl hne
      · have hb : ¬ ((isNullable == "NO") = true) := by simpa using hN
        have hres : selectRandomForeignValue (some ([] : List (Row V)))
            columnName isNullable r = Except.ok none := by
          simp only [selectRandomForeignValue, if_neg hlen, if_neg hb]
        refine ⟨?_, ?_, ?_⟩
        · rw [hres]
          constructor
          · rintro ⟨e, he⟩
            exact Except.noConfusion he
          · rintro ⟨_, hNO⟩
            exact absurd hNO hN
        · intro _ _
          exact hres
        · intro d2 hd2 hne
          rw [Option.some.inj hd2] at hne
          exact absurd rfl hne
    · have hlen : 0 < d.length := List.length_pos.mpr hd
      have hres : selectRandomForeignValue (some d) columnName isNullable r =
          Except.ok ((d.get? (Int.floor (r * (d.length : ℚ))).toNat).bind
            (fun row => lookupRow row columnName)) := by
        simp only [selectRandomForeignValue, if_pos hlen]
      refine ⟨?_, ?_, ?_⟩
      · rw [hres]
        constructor
        · rintro ⟨e, he⟩
          exact Except.noConfusion he
        · rintro ⟨hcase, _⟩
          rcases hcase with hcase | hcase
          · exact Option.noConfusion hcase
          · exact absurd (Option.some.inj hcase) hd
      · intro hcase _
        rcases hcase with hcase | hcase
        · exact Option.noConfusion hcase
        · exact absurd (Option.some.inj hcase) hd
      · intro d2 hd2 _
        rw [← Option.some.inj hd2]
        refine ⟨(Int.floor (r * (d.length : ℚ))).toNat, hidx d hd, ?_⟩
        rw [hres]
        congr 1
        rw [List.get?_eq_get (hidx d hd)]
        rfl

/-- C8 witness: the specification applied at a concrete snapshot, column
and random draw. -/
theorem selectRandomForeignValue_spec_witness :
    selectRandomForeignValue snapW8 "id" "NO" 0 = Except.ok (some 7) ∧
    selectRandomForeignValue (none : Option (List (Row ℕ))) "id" "YES" 0 =
      Except.ok none := by
  have h1 := selectRandomForeignValue_spec snapW8 "id" "NO" 0
    (by norm_num) (by norm_num)
  have h2 := selectRandomForeignValue_spec
    (none : Option (List (Row ℕ))) "id" "YES" 0 (by norm_num) (by norm_num)
  constructor
  · obtain ⟨i, hilt, heq⟩ := h1.2.2 [[("id", 7)]] rfl (by decide)
    rw [heq]
    have hi0 : i = 0 := Nat.lt_one_iff.mp (by exact hilt)
    subst hi0
    exact (rfl :
      (Except.ok (lookupRow ([[("id", 7)]].get ⟨0, by decide⟩) "id") :
        Except String (Option ℕ)) = Except.ok (some 7))
  · exact h2.2.1 (Or.inl rfl) (by decide)

/-- C9 witness: on a concrete schema, generators run in declared order and
the second generator's context row holds exactly the first generator's
assignment. -/
theorem generateRowsPromise_column_order_witness :
    (generateRowsTraced tsW9 colsW9 [] [] none).2.map (fun e => e.column) =
      ["a", "b"] ∧
    ((generateRowsTraced tsW9 colsW9 [] [] none).2.get ⟨1, by decide⟩).ctxRow =
      [("a", 5)] ∧
    generateRowsPromise tsW9 colsW9 [] [] none = [("a", 5), ("b", 6)] := by
  have h := generateRowsPromise_column_order tsW9 colsW9 [] [] none
  refine ⟨?_, ?_, by decide⟩
  · rw [h.2.1]
    decide
  · rw [h.2.2 1 (by decide)]
    decide

/-- C10 witness: a configured generator for a column absent from the schema
is never invoked and leaves no entry in the finished row. -/
theorem generateRowsPromise_skips_unknown_columns_witness :
    lookupRow (generateRowsPromise tsW9 colsW10 [] [] none) "zz" = none ∧
    (¬ ∃ e ∈ (generateRowsTraced tsW9 colsW10 [] [] none).2, e.column = "zz") := by
  have h := generateRowsPromise_skips_unknown_columns tsW9 colsW10 [] [] none "zz"
    (by decide)
  exact ⟨h.2.1, h.1⟩

/-- C4 witness: the deduplication correctness theorem applied to concrete
rows: the third row (no earlier duplicate) survives, and the surviving set
keeps only the first row per primary-key combination. -/
theorem dedupByPrimaryKeys_correct_witness :
    rowsW4.get ⟨2, by decide⟩ ∈ dedupByPrimaryKeys ["a"] rowsW4 ∧
    dedupByPrimaryKeys ["a"] rowsW4 = [[("a", 1), ("b", 1)], [("a", 2)]] := by
  have h := dedupByPrimaryKeys_correct (V := ℕ) ["a"] rowsW4
  refine ⟨h.2.2.2 2 (by decide) ?_, by decide⟩
  intro j hj hji
  have hj01 : j = 0 ∨ j = 1 := by omega
  rcases hj01 with hj0 | hj1
  · subst hj0
    exact (by decide : rowsMatchOn ["a"] (rowsW4.get ⟨0, by decide⟩)
      (rowsW4.get ⟨2, by decide⟩) = false)
  · subst hj1
    exact (by decide : rowsMatchOn ["a"] (rowsW4.get ⟨1, by decide⟩)
      (rowsW4.get ⟨2, by decide⟩) = false)

theorem genRowsForParent_eq_append {V : Type} (ts : TableSchema)
    (cols : List (String × Generator V)) (tc : String) (k : Option V)
    (fr : Row V) (n : ℕ) (acc : List (Row V)) :
    genRowsForParent ts cols tc k fr n acc =
      acc ++ blockForParent ts cols tc k fr n acc := by
  induction n generalizing acc with
  | zero => simp [genRowsForParent, blockForParent]
  | succ n2 ih =>
    simp only [genRowsForParent, blockForParent]
    rw [ih]
    simp

theorem blockForParent_length {V : Type} (ts : TableSchema)
    (cols : List (String × Generator V)) (tc : String) (k : Option V)
    (fr : Row V) (n : ℕ) (acc : List (Row V)) :
    (blockForParent ts cols tc k fr n acc).length = n := by
  induction n generalizing acc with
  | zero => rfl
  | succ n2 ih =>
    simp only [blockForParent, List.length_cons]
    rw [ih]

theorem mem_blockForParent {V : Type} (ts : TableSchema)
    (cols : List (String × Generator V)) (tc : String) (k : Option V)
    (fr : Row V) (n : ℕ) (acc : List (Row V)) (r : Row V)
    (hr : r ∈ blockForParent ts cols tc k fr n acc) :
    ∃ acc2, r = generateRowsPromise ts cols (initRow tc k) acc2 (some fr) := by
  induction n generalizing acc with
  | zero => simp [blockForParent] at hr
  | succ n2 ih =>
    simp only [blockForParent, List.mem_cons] at hr
    rcases hr with hr | hr
    · exact ⟨acc, hr⟩
    · exact ih _ hr

theorem genRowsForeignSeq_eq_flatten {V : Type} (ts : TableSchema)
    (cols : List (String × Generator V)) (tc : String) (cpe : CountPerEntry)
    (rand : ℕ → ℚ) (entries : List (Option V × Row V)) (i : ℕ)
    (acc : List (Row V)) :
    genRowsForeignSeq ts cols tc cpe rand entries i acc =
      acc ++ (fanOutBlocksSeq ts cols tc cpe rand entries i acc).flatten := by
  induction entries generalizing i acc with
  | nil => simp [genRowsForeignSeq, fanOutBlocksSeq]
  | cons e rest ih =>
    obtain ⟨k, fr⟩ := e
    simp only [genRowsForeignSeq, fanOutBlocksSeq, List.flatten_cons]
    rw [genRowsForParent_eq_append, ih]
    simp

theorem fanOutBlocksSeq_length {V : Type} (ts : TableSchema)
    (cols : List (String × Generator V)) (tc : String) (cpe : CountPerEntry)
    (rand : ℕ → ℚ) (entries : List (Option V × Row V)) (i : ℕ)
    (acc : List (Row V)) :
    (fanOutBlocksSeq ts cols tc cpe rand entries i acc).length =
      entries.length := by
  induction entries generalizing i acc with
  | nil => rfl
  | cons e rest ih =>
    obtain ⟨k, fr⟩ := e
    simp only [fanOutBlocksSeq, List.length_cons]
    rw [ih]

theorem fanOutBlocksConc_length {V : Type} (ts : TableSchema)
    (cols : List (String × Generator V)) (tc : String) (cpe : CountPerEntry)
    (rand : ℕ → ℚ) (entries : List (Option V × Row V)) (i : ℕ) :
    (fanOutBlocksConc ts cols tc cpe rand entries i).length = entries.length := by
  induction entries generalizing i with
  | nil => rfl
  | cons e rest ih =>
    obtain ⟨k, fr⟩ := e
    simp only [fanOutBlocksConc, List.length_cons]
    rw [ih]

theorem fanOutBlocksSeq_get_length {V : Type} (ts : TableSchema)
    (cols : List (String × Generator V)) (tc : String) (cpe : CountPerEntry)
    (rand : ℕ → ℚ) (entries : List (Option V × Row V)) (i : ℕ)
    (acc : List (Row V)) (j : ℕ)
    (hj : j < (fanOutBlocksSeq ts cols tc cpe rand entries i acc).length) :
    ((fanOutBlocksSeq ts cols tc cpe rand entries i acc).get ⟨j, hj⟩).length =
      (entryCount cpe (rand (i + j))).toNat := by
  induction entries generalizing i acc j with
  | nil => simp [fanOutBlocksSeq] at hj
  | cons e rest ih =>
    obtain ⟨k, fr⟩ := e
    cases j with
    | zero =>
      show (blockForParent ts cols tc k fr (entryCount cpe (rand i)).toNat acc).length =
        (entryCount cpe (rand (i + 0))).toNat
      rw [blockForParent_length, Nat.add_zero]
    | succ j2 =>
      have hj4 : j2 < (fanOutBlocksSeq ts cols tc cpe rand rest (i + 1)
          (acc ++ blockForParent ts cols tc k fr
            (entryCount cpe (rand i)).toNat acc)).length := by
        have hj5 := hj
        simp only [fanOutBlocksSeq, List.length_cons] at hj5
        omega
      have hstep : (fanOutBlocksSeq ts cols tc cpe rand ((k, fr) :: rest) i acc).get
          ⟨j2 + 1, hj⟩ = (fanOutBlocksSeq ts cols tc cpe rand rest (i + 1)
            (acc ++ blockForParent ts cols tc k fr
              (entryCount cpe (rand i)).toNat acc)).get ⟨j2, hj4⟩ := rfl
      rw [hstep, ih]
      have harith : i + 1 + j2 = i + (j2 + 1) := by omega
      rw [harith]

theorem fanOutBlocksConc_get_length {V : Type} (ts : TableSchema)
    (cols : List (String × Generator V)) (tc : String) (cpe : CountPerEntry)
    (rand : ℕ → ℚ) (entries : List (Option V × Row V)) (i : ℕ) (j : ℕ)
    (hj : j < (fanOutBlocksConc ts cols tc cpe rand entries i).length) :
    ((fanOutBlocksConc ts cols tc cpe rand entries i).get ⟨j, hj⟩).length =
      (entryCount cpe (rand (i + j))).toNat := by
  induction entries generalizing i j with
  | nil => simp [fanOutBlocksConc] at hj
  | cons e rest ih =>
    obtain ⟨k, fr⟩ := e
    cases j with
    | zero =>
      show ((List.range (entryCount cpe (rand i)).toNat).map
        (fun _ => generateRowsPromise ts cols (initRow tc k) [] (some fr))).length =
        (entryCount cpe (rand (i + 0))).toNat
      rw [Nat.add_zero]
      simp
    | succ j2 =>
      have hj4 : j2 < (fanOutBlocksConc ts cols tc cpe rand rest (i + 1)).length := by
        have hj5 := hj
        simp only [fanOutBlocksConc, List.length_cons] at hj5
        omega
      have hstep : (fanOutBlocksConc ts cols tc cpe rand ((k, fr) :: rest) i).get
          ⟨j2 + 1, hj⟩ =
          (fanOutBlocksConc ts cols tc cpe rand rest (i + 1)).get ⟨j2, hj4⟩ := rfl
      rw [hstep, ih]
      have harith : i + 1 + j2 = i + (j2 + 1) := by omega
      rw [harith]

theorem mem_fanOutBlocksSeq_get {V : Type} (ts : TableSchema)
    (cols : List (String × Generator V)) (tc : String) (cpe : CountPerEntry)
    (rand : ℕ → ℚ) (entries : List (Option V × Row V)) (i : ℕ)
    (acc : List (Row V)) (j : ℕ)
    (hj : j < (fanOutBlocksSeq ts cols tc cpe rand entries i acc).length)
    (hj2 : j < entries.length) (r : Row V)
    (hr : r ∈ (fanOutBlocksSeq ts cols tc cpe rand entries i acc).get ⟨j, hj⟩) :
    ∃ acc2, r = generateRowsPromise ts cols
      (initRow tc (entries.get ⟨j, hj2⟩).1) acc2
      (some (entries.get ⟨j, hj2⟩).2) := by
  induction entries generalizing i acc j with
  | nil => simp at hj2
  | cons e rest ih =>
    obtain ⟨k, fr⟩ := e
    cases j with
    | zero =>
      exact mem_blockForParent ts cols tc k fr _ acc r hr
    | succ j2 =>
      have hj4 : j2 < (fanOutBlocksSeq ts cols tc cpe rand rest (i + 1)
          (acc ++ blockForParent ts cols tc k fr
            (entryCount cpe (rand i)).toNat acc)).length := by
        have hj5 := hj
        simp only [fanOutBlocksSeq, List.length_cons] at hj5
        omega
      have hstep : (fanOutBlocksSeq ts cols tc cpe rand ((k, fr) :: rest) i acc).get
          ⟨j2 + 1, hj⟩ = (fanOutBlocksSeq ts cols tc cpe rand rest (i + 1)
            (acc ++ blockForParent ts cols tc k fr
              (entryCount cpe (rand i)).toNat acc)).get ⟨j2, hj4⟩ := rfl
      rw [hstep] at hr
      exact ih _ _ j2 hj4 (by simpa using hj2) hr

theorem mem_fanOutBlocksConc_get {V : Type} (ts : TableSchema)
    (cols : List (String × Generator V)) (tc : String) (cpe : CountPerEntry)
    (rand : ℕ → ℚ) (entries : List (Option V × Row V)) (i : ℕ) (j : ℕ)
    (hj : j < (fanOutBlocksConc ts cols tc cpe rand entries i).length)
    (hj2 : j < entries.length) (r : Row V)
    (hr : r ∈ (fanOutBlocksConc ts cols tc cpe rand entries i).get ⟨j, hj⟩) :
    ∃ acc2, r = generateRowsPromise ts cols
      (initRow tc (entries.get ⟨j, hj2⟩).1) acc2
      (some (entries.get ⟨j, hj2⟩).2) := by
  induction entries generalizing i j with
  | nil => simp at hj2
  | cons e rest ih =>
    obtain ⟨k, fr⟩ := e
    cases j with
    | zero =>
      have hr2 : r ∈ (List.range (entryCount cpe (rand i)).toNat).map
          (fun _ => generateRowsPromise ts cols (initRow tc k) [] (some fr)) := hr
      rcases List.mem_map.mp hr2 with ⟨_, _, hrr⟩
      exact ⟨[], hrr.symm⟩
    | succ j2 =>
      have hj4 : j2 < (fanOutBlocksConc ts cols tc cpe rand rest (i + 1)).length := by
        have hj5 := hj
        simp only [fanOutBlocksConc, List.length_cons] at hj5
        omega
      have hstep : (fanOutBlocksConc ts cols tc cpe rand ((k, fr) :: rest) i).get
          ⟨j2 + 1, hj⟩ =
          (fanOutBlocksConc ts cols tc cpe rand rest (i + 1)).get ⟨j2, hj4⟩ := rfl
      rw [hstep] at hr
      exact ih _ j2 hj4 (by simpa using hj2) hr

theorem entryCount_range_bounds (m n : Int) (r : ℚ) (h0 : 0 ≤ r) (h1 : r < 1)
    (hmn : m ≤ n) :
    m ≤ entryCount (CountPerEntry.range m n) r ∧
      entryCount (CountPerEntry.range m n) r ≤ n := by
  simp only [entryCount]
  have hw : (0 : ℚ) < (n : ℚ) - (m : ℚ) + 1 := by
    have : (m : ℚ) ≤ (n : ℚ) := by exact_mod_cast hmn
    linarith
  constructor
  · have hfl0 : (0 : ℤ) ≤ Int.floor (r * ((n : ℚ) - (m : ℚ) + 1)) :=
      Int.floor_nonneg.mpr (mul_nonneg h0 (le_of_lt hw))
    omega
  · have hub : r * ((n : ℚ) - (m : ℚ) + 1) < (n : ℚ) - (m : ℚ) + 1 := by
      calc r * ((n : ℚ) - (m : ℚ) + 1) < 1 * ((n : ℚ) - (m : ℚ) + 1) :=
            mul_lt_mul_of_pos_right h1 hw
        _ = (n : ℚ) - (m : ℚ) + 1 := one_mul _
    have hfl : Int.floor (r * ((n : ℚ) - (m : ℚ) + 1)) < n - m + 1 := by
      apply Int.floor_lt.mpr
      push_cast
      exact hub
    omega

theorem lookupRow_initRow {V : Type} (tc : String) (k : Option V) :
    lookupRow (initRow tc k) tc = k := by
  cases k with
  | none => rfl
  | some v =>
    unfold initRow lookupRow
    rw [List.find?_cons_of_pos _ (by simp)]
    rfl

theorem generateRowsPromise_lookup_of_no_generator {V : Type}
    (ts : TableSchema) (cols : List (String × Generator V)) (row : Row V)
    (rows : List (Row V)) (fr : Option (Row V)) (tc : String)
    (hno : ∀ p ∈ cols, p.1 = tc →
      ts.columns.find? (fun c => c.column_name == p.1) = none) :
    lookupRow (generateRowsPromise ts cols row rows fr) tc = lookupRow row tc := by
  induction cols generalizing row with
  | nil => rfl
  | cons cg rest ih =>
    obtain ⟨name, gen⟩ := cg
    simp only [generateRowsPromise]
    cases hf : ts.columns.find? (fun c => c.column_name == name) with
    | none => exact ih row (fun p hp => hno p (List.mem_cons_of_mem _ hp))
    | some cs =>
      have hne : tc ≠ name := by
        intro heq
        have := hno (name, gen) (List.mem_cons_self _ _) heq.symm
        rw [this] at hf
        exact Option.noConfusion hf
      rw [ih _ (fun p hp => hno p (List.mem_cons_of_mem _ hp)),
        lookupRow_setCol_ne _ _ _ _ hne]

/-- C3: for foreign-table fan-out with a `{min, max}` `countPerEntry`
(random draws in `[0, 1)`), the generated rows split into one block per
distinct parent key (in parent-lookup order, sequentially or concurrently),
and every block's size lies in `[min, max]`; with a fixed `countPerEntry`
every block has exactly that size. -/
theorem generateRowsForeign_counts {V : Type} [DecidableEq V]
    (ts : TableSchema) (cols : List (String × Generator V))
    (fc tc : String) (cpe : CountPerEntry) (concurrent : Bool)
    (ftd : List (Row V)) (rand : ℕ → ℚ)
    (hr : ∀ i, 0 ≤ rand i ∧ rand i < 1) :
    ∃ blocks : List (List (Row V)),
      blocks = (if concurrent then
          fanOutBlocksConc ts cols tc cpe rand (buildLookup fc ftd) 0
        else fanOutBlocksSeq ts cols tc cpe rand (buildLookup fc ftd) 0 []) ∧
      generateRowsForeign ts cols fc tc cpe concurrent ftd rand =
        blocks.flatten ∧
      blocks.length = (buildLookup fc ftd).length ∧
      (∀ m n, cpe = CountPerEntry.range m n → 0 ≤ m → m ≤ n →
        ∀ j (hj : j < blocks.length),
          m ≤ ((blocks.get ⟨j, hj⟩).length : ℤ) ∧
          ((blocks.get ⟨j, hj⟩).length : ℤ) ≤ n) ∧
      (∀ k2, cpe = CountPerEntry.fixed k2 → 0 ≤ k2 →
        ∀ j (hj : j < blocks.length),
          ((blocks.get ⟨j, hj⟩).length : ℤ) = k2) := by
  have hgetlen : ∀ j (hj : j < (if concurrent then
      fanOutBlocksConc ts cols tc cpe rand (buildLookup fc ftd) 0
    else fanOutBlocksSeq ts cols tc cpe rand (buildLookup fc ftd) 0 []).length),
      (((if concurrent then
          fanOutBlocksConc ts cols tc cpe rand (buildLookup fc ftd) 0
        else fanOutBlocksSeq ts cols tc cpe rand (buildLookup fc ftd) 0 []).get
          ⟨j, hj⟩).length) = (entryCount cpe (rand j)).toNat := by
    cases concurrent with
    | true =>
      intro j hj
      simpa using fanOutBlocksConc_get_length ts cols tc cpe rand
        (buildLookup fc ftd) 0 j hj
    | false =>
      intro j hj
      simpa using fanOutBlocksSeq_get_length ts cols tc cpe rand
        (buildLookup fc ftd) 0 [] j hj
  refine ⟨_, rfl, ?_, ?_, ?_, ?_⟩
  · cases concurrent with
    | true => rfl
    | false => exact genRowsForeignSeq_eq_flatten ts cols tc cpe rand _ 0 []
  · cases concurrent with
    | true => exact fanOutBlocksConc_length ts cols tc cpe rand _ 0
    | false => exact fanOutBlocksSeq_length ts cols tc cpe rand _ 0 []
  · intro m n hcpe hm hmn j hj
    rw [hgetlen j hj]
    subst hcpe
    have hb := entryCount_range_bounds m n (rand j) (hr j).1 (hr j).2 hmn
    have h0c : 0 ≤ entryCount (CountPerEntry.range m n) (rand j) :=
      le_trans hm hb.1
    omega
  · intro k2 hcpe hk2 j hj
    rw [hgetlen j hj]
    subst hcpe
    simp only [entryCount]
    omega

/-- C5 (amended): every row generated by foreign-table fan-out for the
`j`-th distinct parent key is produced by `generateRowsPromise` seeded with
`currentRow[tableColumn] = parentKeyValue` and with `foreignRow` the parent
row matched by that key; and provided the columns map declares no
schema-effective generator for the fan-out column itself, the finished
row's fan-out column still equals the parent key value.  (When the columns
map does declare one, that generator overwrites the seeded value —
`generateRowsForeign_fk_override_counterexample`.) -/
theorem generateRowsForeign_fk_and_parent_row {V : Type} [DecidableEq V]
    (ts : TableSchema) (cols : List (String × Generator V))
    (fc tc : String) (cpe : CountPerEntry) (concurrent : Bool)
    (ftd : List (Row V)) (rand : ℕ → ℚ)
    (hno : ∀ p ∈ cols, p.1 = tc →
      ts.columns.find? (fun c => c.column_name == p.1) = none) :
    ∃ blocks : List (List (Row V)),
      blocks = (if concurrent then
          fanOutBlocksConc ts cols tc cpe rand (buildLookup fc ftd) 0
        else fanOutBlocksSeq ts cols tc cpe rand (buildLookup fc ftd) 0 []) ∧
      generateRowsForeign ts cols fc tc cpe concurrent ftd rand =
        blocks.flatten ∧
      blocks.length = (buildLookup fc ftd).length ∧
      ∀ j (hj : j < blocks.length) (hj2 : j < (buildLookup fc ftd).length),
        ∀ r ∈ blocks.get ⟨j, hj⟩,
          (∃ acc2, r = generateRowsPromise ts cols
            (initRow tc ((buildLookup fc ftd).get ⟨j, hj2⟩).1) acc2
            (some ((buildLookup fc ftd).get ⟨j, hj2⟩).2)) ∧
          lookupRow r tc = ((buildLookup fc ftd).get ⟨j, hj2⟩).1 := by
  refine ⟨_, rfl, ?_, ?_, ?_⟩
  · cases concurrent with
    | true => rfl
    | false => exact genRowsForeignSeq_eq_flatten ts cols tc cpe rand _ 0 []
  · cases concurrent with
    | true => exact fanOutBlocksConc_length ts cols tc cpe rand _ 0
    | false => exact fanOutBlocksSeq_length ts cols tc cpe rand _ 0 []
  · intro j hj hj2 r hr
    have hmem : ∃ acc2, r = generateRowsPromise ts cols
        (initRow tc ((buildLookup fc ftd).get ⟨j, hj2⟩).1) acc2
        (some ((buildLookup fc ftd).get ⟨j, hj2⟩).2) := by
      revert hj
      cases concurrent with
      | true =>
        intro hj hr
        exact mem_fanOutBlocksConc_get ts cols tc cpe rand _ 0 j hj hj2 r hr
      | false =>
        intro hj hr
        exact mem_fanOutBlocksSeq_get ts cols tc cpe rand _ 0 [] j hj hj2 r hr
    refine ⟨hmem, ?_⟩
    obtain ⟨acc2, hacc⟩ := hmem
    rw [hacc, generateRowsPromise_lookup_of_no_generator ts cols _ _ _ tc hno,
      lookupRow_initRow]

/-- C5 counterexample: with a generator declared for the fan-out column,
the finished row's fan-out column holds the generator's value, not the
distinct parent key value it was generated for. -/
theorem generateRowsForeign_fk_override_counterexample :
    buildLookup "id" [[("id", "W1")]] = [(some "W1", [("id", "W1")])] ∧
    generateRowsForeign tsW5 colsW5 "id" "workspace_id"
      (CountPerEntry.fixed 1) false [[("id", "W1")]] (fun _ => 0) =
      [[("workspace_id", "OTHER")]] ∧
    lookupRow [("workspace_id", "OTHER")] "workspace_id" = some "OTHER" ∧
    ("OTHER" : String) ≠ "W1" := by
  refine ⟨by decide, ?_, by decide, by decide⟩
  show genRowsForeignSeq tsW5 colsW5 "workspace_id" (CountPerEntry.fixed 1)
    (fun _ => 0) (buildLookup "id" [[("id", "W1")]]) 0 [] =
    [[("workspace_id", "OTHER")]]
  decide

/-- C3 witness: a concrete two-parent fan-out with a fixed `countPerEntry`
of `2` splits into two blocks of exactly two rows each. -/
theorem generateRowsForeign_counts_witness :
    generateRowsForeign tsW5 ([] : List (String × Generator String)) "id"
        "workspace_id" (CountPerEntry.fixed 2) false
        [[("id", "W1")], [("id", "W2")]] (fun _ => 0) =
      (fanOutBlocksSeq tsW5 ([] : List (String × Generator String))
        "workspace_id" (CountPerEntry.fixed 2) (fun _ => 0)
        (buildLookup "id" [[("id", "W1")], [("id", "W2")]]) 0 []).flatten ∧
    (fanOutBlocksSeq tsW5 ([] : List (String × Generator String))
        "workspace_id" (CountPerEntry.fixed 2) (fun _ => 0)
        (buildLookup "id" [[("id", "W1")], [("id", "W2")]]) 0 []).map
      List.length = [2, 2] := by
  obtain ⟨blocks, hpin, hfl, hlen, hrange, hfix⟩ :=
    generateRowsForeign_counts tsW5 ([] : List (String × Generator String))
      "id" "workspace_id" (CountPerEntry.fixed 2) false
      [[("id", "W1")], [("id", "W2")]] (fun _ => 0)
      (fun i => ⟨le_refl 0, by norm_num⟩)
  constructor
  · rw [hpin] at hfl
    exact hfl
  · decide

/-- C5 witness: with no generator declared for the fan-out column, the
generated row keeps the parent key value in the fan-out column. -/
theorem generateRowsForeign_fk_and_parent_row_witness :
    generateRowsForeign tsW5 ([] : List (String × Generator String)) "id"
        "workspace_id" (CountPerEntry.fixed 1) false [[("id", "W1")]]
        (fun _ => 0) = [[("workspace_id", "W1")]] ∧
    lookupRow ([("workspace_id", "W1")] : Row String) "workspace_id" =
      some "W1" := by
  obtain ⟨blocks, hpin, hfl, hlen, hprop⟩ :=
    generateRowsForeign_fk_and_parent_row tsW5
      ([] : List (String × Generator String)) "id" "workspace_id"
      (CountPerEntry.fixed 1) false [[("id", "W1")]] (fun _ => 0)
      (fun p hp => absurd hp (List.not_mem_nil p))
  constructor
  · rw [hfl, hpin]
    decide
  · decide

theorem truncateLoop_trace (cfgs : List SeedCfg) (ok : ℕ → Bool)
    (ts : List String) : ∀ idx tr, ∃ idx2 extra,
    truncateLoop cfgs ok ts idx tr = (idx2, tr ++ extra) ∧
    ∀ e ∈ extra, ∃ t s, e = (ResetEvent.truncate t, s) := by
  induction ts with
  | nil =>
    intro idx tr
    exact ⟨idx, [], by simp [truncateLoop], by simp⟩
  | cons t rest ih =>
    intro idx tr
    by_cases he : resetEligible cfgs t = true
    · obtain ⟨idx2, extra, heq, hex⟩ :=
        ih (idx + 1) (tr ++ [(ResetEvent.truncate t, ok idx)])
      refine ⟨idx2, (ResetEvent.truncate t, ok idx) :: extra, ?_, ?_⟩
      · simp only [truncateLoop, if_pos he]
        rw [heq]
        simp
      · intro e hmem
        rcases List.mem_cons.mp hmem with hmem | hmem
        · exact ⟨t, ok idx, hmem⟩
        · exact hex e hmem
    · obtain ⟨idx2, extra, heq, hex⟩ := ih idx tr
      exact ⟨idx2, extra, by simp only [truncateLoop, if_neg he]; exact heq, hex⟩

theorem modeAfter_append (tr ex : List (ResetEvent × Bool)) :
    modeAfter (tr ++ ex) = ex.foldl
      (fun m e =>
        if e.2 then
          match e.1 with
          | ResetEvent.setReplica => true
          | ResetEvent.setDefault => false
          | ResetEvent.truncate _ => m
        else m)
      (modeAfter tr) :=
  List.foldl_append _ _ _ _

theorem foldl_mode_truncates (ex : List (ResetEvent × Bool)) (m : Bool)
    (hex : ∀ e ∈ ex, ∃ t s, e = (ResetEvent.truncate t, s)) :
    ex.foldl
      (fun m e =>
        if e.2 then
          match e.1 with
          | ResetEvent.setReplica => true
          | ResetEvent.setDefault => false
          | ResetEvent.truncate _ => m
        else m)
      m = m := by
  induction ex generalizing m with
  | nil => rfl
  | cons e rest ih =>
    obtain ⟨t, s, he⟩ := hex e (List.mem_cons_self _ _)
    subst he
    simp only [List.foldl_cons]
    rw [ih _ (fun e2 h2 => hex e2 (List.mem_cons_of_mem _ h2))]
    cases s <;> rfl

theorem modeAfter_truncates_append (tr ex : List (ResetEvent × Bool))
    (hex : ∀ e ∈ ex, ∃ t s, e = (ResetEvent.truncate t, s)) :
    modeAfter (tr ++ ex) = modeAfter tr := by
  rw [modeAfter_append]
  exact foldl_mode_truncates ex _ hex

theorem resetDatabase_of_suspend_fail (cfgs : List SeedCfg)
    (order : List String) (ok : ℕ → Bool) (h0 : ok 0 = false) :
    resetDatabase cfgs order ok =
      (true, [(ResetEvent.setReplica, false), (ResetEvent.setDefault, ok 1)]) := by
  unfold resetDatabase
  rw [h0]
  simp

theorem resetDatabase_of_restore_ok (cfgs : List SeedCfg)
    (order : List String) (ok : ℕ → Bool) (idx2 : ℕ)
    (tr2 : List (ResetEvent × Bool)) (h0 : ok 0 = true)
    (heq : truncateLoop cfgs ok order.reverse 1 [(ResetEvent.setReplica, true)] =
      (idx2, tr2))
    (hR : ok idx2 = true) :
    resetDatabase cfgs order ok = (false, tr2 ++ [(ResetEvent.setDefault, true)]) := by
  unfold resetDatabase
  rw [h0]
  simp only [if_pos rfl]
  rw [heq]
  simp [hR]

theorem resetDatabase_of_restore_fail (cfgs : List SeedCfg)
    (order : List String) (ok : ℕ → Bool) (idx2 : ℕ)
    (tr2 : List (ResetEvent × Bool)) (h0 : ok 0 = true)
    (heq : truncateLoop cfgs ok order.reverse 1 [(ResetEvent.setReplica, true)] =
      (idx2, tr2))
    (hR : ok idx2 = false) :
    resetDatabase cfgs order ok =
      (true, tr2 ++ [(ResetEvent.setDefault, false),
        (ResetEvent.setDefault, ok (idx2 + 1))]) := by
  unfold resetDatabase
  rw [h0]
  simp only [if_pos rfl]
  rw [heq]
  simp [hR]

/-- C7 (amended): `resetDatabase` always issues a restore
(`SET session_replication_role = DEFAULT`) after a successful suspension,
and on normal completion the session is never left constraint-suspended;
it throws exactly when a suspend or restore query fails (per-table
truncation failures are swallowed); every propagated error is rethrown
after a restore attempt (the last issued query is a restore); but if the
restore attempts themselves fail, the function propagates with constraints
still suspended, so termination in the suspended state is possible exactly
when the error path's final restore attempt fails. -/
theorem resetDatabase_restoration (cfgs : List SeedCfg) (order : List String)
    (ok : ℕ → Bool) :
    ((resetDatabase cfgs order ok).1 = false →
      modeAfter (resetDatabase cfgs order ok).2 = false) ∧
    ((ResetEvent.setReplica, true) ∈ (resetDatabase cfgs order ok).2 →
      ∃ b, (ResetEvent.setDefault, b) ∈ (resetDatabase cfgs order ok).2) ∧
    ((resetDatabase cfgs order ok).1 = true ↔
      ((ResetEvent.setReplica, false) ∈ (resetDatabase cfgs order ok).2 ∨
       (ResetEvent.setDefault, false) ∈ (resetDatabase cfgs order ok).2)) ∧
    (modeAfter (resetDatabase cfgs order ok).2 = true →
      (resetDatabase cfgs order ok).1 = true ∧
      (resetDatabase cfgs order ok).2.getLast? =
        some (ResetEvent.setDefault, false)) ∧
    ((resetDatabase cfgs order ok).1 = true →
      ∃ b, (resetDatabase cfgs order ok).2.getLast? =
        some (ResetEvent.setDefault, b)) := by
  cases h0 : ok 0 with
  | false =>
    rw [resetDatabase_of_suspend_fail cfgs order ok h0]
    have hmode : modeAfter [(ResetEvent.setReplica, false),
        (ResetEvent.setDefault, ok 1)] = false := by
      cases h1 : ok 1 <;> simp [modeAfter, h1]
    refine ⟨?_, ?_, ?_, ?_, ?_⟩
    · intro h
      exact hmode
    · intro _
      exact ⟨ok 1, by simp⟩
    · exact ⟨fun _ => Or.inl (by simp), fun _ => rfl⟩
    · intro h
      rw [hmode] at h
      exact Bool.noConfusion h
    · intro _
      exact ⟨ok 1, by simp⟩
  | true =>
    obtain ⟨idx2, extra, heq, hex⟩ :=
      truncateLoop_trace cfgs ok order.reverse 1 [(ResetEvent.setReplica, true)]
    have hmode1 : modeAfter ([(ResetEvent.setReplica, true)] ++ extra) = true := by
      rw [modeAfter_truncates_append _ _ hex]
      rfl
    have hnomem : ∀ b, ¬ ((ResetEvent.setDefault, b) ∈
        ([(ResetEvent.setReplica, true)] ++ extra)) := by
      intro b hmem
      rcases List.mem_append.mp hmem with hmem | hmem
      · simp at hmem
      · obtain ⟨t, s, he⟩ := hex _ hmem
        exact ResetEvent.noConfusion (congrArg Prod.fst he)
    have hnomemR : ¬ ((ResetEvent.setReplica, false) ∈
        ([(ResetEvent.setReplica, true)] ++ extra)) := by
      intro hmem
      rcases List.mem_append.mp hmem with hmem | hmem
      · simp at hmem
      · obtain ⟨t, s, he⟩ := hex _ hmem
        exact ResetEvent.noConfusion (congrArg Prod.fst he)
    cases hR : ok idx2 with
    | true =>
      rw [resetDatabase_of_restore_ok cfgs order ok idx2 _ h0 heq hR]
      have hmode : modeAfter (([(ResetEvent.setReplica, true)] ++ extra) ++
          [(ResetEvent.setDefault, true)]) = false := by
        rw [modeAfter_append, hmode1]
        rfl
      refine ⟨?_, ?_, ?_, ?_, ?_⟩
      · intro _
        exact hmode
      · intro _
        exact ⟨true, by simp⟩
      · constructor
        · intro h
          exact Bool.noConfusion h
        · rintro (hmem | hmem)
          · rcases List.mem_append.mp hmem with hmem | hmem
            · exact absurd hmem hnomemR
            · simp at hmem
          · rcases List.mem_append.mp hmem with hmem | hmem
            · exact absurd hmem (hnomem false)
            · simp at hmem
      · intro h
        rw [hmode] at h
        exact Bool.noConfusion h
      · intro h
        exact Bool.noConfusion h
    | false =>
      rw [resetDatabase_of_restore_fail cfgs order ok idx2 _ h0 heq hR]
      have hsplit : ([(ResetEvent.setReplica, true)] ++ extra) ++
          [(ResetEvent.setDefault, false), (ResetEvent.setDefault, ok (idx2 + 1))] =
          (([(ResetEvent.setReplica, true)] ++ extra) ++
            [(ResetEvent.setDefault, false)]) ++
            [(ResetEvent.setDefault, ok (idx2 + 1))] := by
        simp
      refine ⟨?_, ?_, ?_, ?_, ?_⟩
      · intro h
        exact Bool.noConfusion h
      · intro _
        exact ⟨false, by simp⟩
      · exact ⟨fun _ => Or.inr (by simp), fun _ => rfl⟩
      · intro _
        refine ⟨rfl, ?_⟩
        rw [hsplit]
        cases hok2 : ok (idx2 + 1) with
        | false => rw [List.getLast?_concat]
        | true =>
          exfalso
          rename_i h
          rw [hsplit] at h
          rw [modeAfter_append] at h
          rw [modeAfter_append, hmode1] at h
          simp only [List.foldl_cons, List.foldl_nil] at h
          rw [hok2] at h
          simp at h
      · intro _
        rw [hsplit]
        exact ⟨ok (idx2 + 1), List.getLast?_concat _⟩

/-- C7 counterexample: an oracle on which only the suspension query
succeeds.  Constraint enforcement is suspended, both restore attempts fail,
and `resetDatabase` propagates its error with the session still in the
constraint-suspended state — contradicting the claim that it never
terminates suspended. -/
theorem resetDatabase_suspended_counterexample :
    resetDatabase [] [] (fun n => n == 0) =
      (true, [(ResetEvent.setReplica, true), (ResetEvent.setDefault, false),
        (ResetEvent.setDefault, false)]) ∧
    (ResetEvent.setReplica, true) ∈ (resetDatabase [] [] (fun n => n == 0)).2 ∧
    modeAfter (resetDatabase [] [] (fun n => n == 0)).2 = true := by
  refine ⟨by decide, by decide, by decide⟩

/-- C7 witness: the amended theorem applied to an all-successful oracle:
the run completes without error and ends with constraints restored. -/
theorem resetDatabase_restoration_witness :
    modeAfter (resetDatabase [⟨"t1", false⟩] ["t1"] (fun _ => true)).2 = false ∧
    (resetDatabase [⟨"t1", false⟩] ["t1"] (fun _ => true)).1 = false := by
  have h := resetDatabase_restoration [⟨"t1", false⟩] ["t1"] (fun _ => true)
  exact ⟨h.1 (by decide), by decide⟩

theorem freeKeys_cons_lt (g : Graph) (t : String) (visiting : List String)
    (ht : t ∈ graphKeys g) (hnv : t ∉ visiting) :
    freeKeys g (t :: visiting) < freeKeys g visiting := by
  unfold freeKeys
  obtain ⟨l1, l2, hsplit⟩ := List.append_of_mem ht
  rw [hsplit]
  rw [List.countP_append, List.countP_append, List.countP_cons, List.countP_cons]
  have hmono : ∀ l : List String,
      l.countP (fun x => decide (x ∉ t :: visiting)) ≤
      l.countP (fun x => decide (x ∉ visiting)) := by
    intro l
    apply List.countP_mono_left
    intro a _ ha
    simp only [decide_eq_true_eq, List.mem_cons, not_or] at ha ⊢
    exact ha.2
  have hc1 : (decide (t ∉ t :: visiting)) = false := by simp
  have hc2 : (decide (t ∉ visiting)) = true := by simpa using hnv
  rw [hc1, hc2]
  have h1 := hmono l1
  have h2 := hmono l2
  simp only [Bool.false_eq_true, if_false, if_true]
  omega

theorem mem_graphKeys_of_findNode (g : Graph) (t : String) (n : TableNode)
    (h : findNode g t = some n) : t ∈ graphKeys g := by
  unfold findNode at h
  have hmem := List.mem_of_find?_eq_some h
  have hbeq := List.find?_some h
  have : n.name = t := by simpa using hbeq
  rw [← this]
  exact List.mem_map.mpr ⟨n, hmem, rfl⟩

theorem depsOf_eq_nil_of_not_mem (g : Graph) (t : String)
    (h : t ∉ graphKeys g) : depsOf g t = [] := by
  unfold depsOf
  cases hf : findNode g t with
  | none => rfl
  | some n => exact absurd (mem_graphKeys_of_findNode g t n hf) h

theorem mem_graphKeys_of_edge (g : Graph) (a b : String) (h : edge g a b) :
    a ∈ graphKeys g := by
  by_contra hna
  rw [edge, depsOf_eq_nil_of_not_mem g a hna] at h
  exact List.not_mem_nil b h

theorem transGen_of_chain_getLast {α : Type} (e : α → α → Prop) (x : α)
    (tail : List α) (l : α) (hch : List.Chain e x tail)
    (hlast : (x :: tail).getLast (List.cons_ne_nil x tail) = l) :
    Relation.ReflTransGen e x l :=
  List.relationReflTransGen_of_exists_chain tail hch hlast

theorem cycle_of_chain_shape {α : Type} (e : α → α → Prop) (c : List α)
    (hch : List.Chain' e c) (l : α) (hlast : c.getLast? = some l)
    (hmem : l ∈ c.dropLast) : Relation.TransGen e l l := by
  have hc : c.dropLast ++ [l] = c := List.dropLast_append_getLast? l hlast
  obtain ⟨l1, l2, hdl⟩ := List.append_of_mem hmem
  have hcfull : c = l1 ++ (l :: (l2 ++ [l])) := by
    rw [← hc, hdl]
    simp
  have hsuf : (l :: (l2 ++ [l])) <:+ c := by
    rw [hcfull]
    exact List.suffix_append l1 _
  have hch2 : List.Chain' e (l :: (l2 ++ [l])) := hch.suffix hsuf
  have hch3 : List.Chain e l (l2 ++ [l]) := hch2
  cases hl2 : l2 ++ [l] with
  | nil => exact absurd hl2 (by simp)
  | cons x rest =>
    rw [hl2] at hch3
    have hex : e l x := List.rel_of_chain_cons hch3
    have hchx : List.Chain e x rest := List.chain_of_chain_cons hch3
    have hq : (x :: rest).getLast? = some l := by
      rw [← hl2]
      exact List.getLast?_concat _
    have hlastx : (x :: rest).getLast (List.cons_ne_nil x rest) = l := by
      have hg := List.getLast?_eq_getLast (x :: rest) (List.cons_ne_nil x rest)
      rw [hg] at hq
      exact Option.some.inj hq
    exact Relation.TransGen.head' hex
      (transGen_of_chain_getLast e x rest l hchx hlastx)

theorem chain'_append_link {α : Type} (e : α → α → Prop) (path : List α)
    (t : α) (hch : List.Chain' e path)
    (hlink : ∀ l, path.getLast? = some l → e l t) :
    List.Chain' e (path ++ [t]) := by
  apply List.Chain'.append hch (List.chain'_singleton t)
  intro x hx y hy
  simp only [List.head?_cons, Option.mem_def, Option.some.injEq] at hy
  subst hy
  exact hlink x (Option.mem_def.mp hx)

theorem dfsList_zero (g : Graph) :
    ∀ ds path visiting visited,
      dfsList g 0 ds path visiting visited = (none, visited) := by
  intro ds
  induction ds with
  | nil =>
    intro path visiting visited
    simp [dfsList]
  | cons d rest ih =>
    intro path visiting visited
    simp only [dfsList, dfsVisit]
    exact ih path visiting visited

theorem dfs_some_sound (g : Graph) : ∀ fuel : ℕ,
    (∀ t path visiting visited c vd,
      dfsVisit g fuel t path visiting visited = (some c, vd) →
      (∀ x, x ∈ visiting ↔ x ∈ path) →
      List.Chain' (edge g) path →
      (∀ l, path.getLast? = some l → edge g l t) →
      List.Chain' (edge g) c ∧ ∃ l, c.getLast? = some l ∧ l ∈ c.dropLast) ∧
    (∀ ds path visiting visited c vd,
      dfsList g fuel ds path visiting visited = (some c, vd) →
      (∀ x, x ∈ visiting ↔ x ∈ path) →
      List.Chain' (edge g) path →
      (∀ d ∈ ds, ∀ l, path.getLast? = some l → edge g l d) →
      List.Chain' (edge g) c ∧ ∃ l, c.getLast? = some l ∧ l ∈ c.dropLast) := by
  intro fuel
  induction fuel with
  | zero =>
    constructor
    · intro t path visiting visited c vd h
      simp [dfsVisit] at h
    · intro ds path visiting visited c vd h
      rw [dfsList_zero] at h
      simp at h
  | succ fuel ih =>
    have hV : ∀ t path visiting visited c vd,
        dfsVisit g (fuel + 1) t path visiting visited = (some c, vd) →
        (∀ x, x ∈ visiting ↔ x ∈ path) →
        List.Chain' (edge g) path →
        (∀ l, path.getLast? = some l → edge g l t) →
        List.Chain' (edge g) c ∧ ∃ l, c.getLast? = some l ∧ l ∈ c.dropLast := by
      intro t path visiting visited c vd h hpv hch hlink
      rw [dfsVisit] at h
      by_cases hvis : t ∈ visiting
      · rw [if_pos hvis] at h
        have hc : c = path ++ [t] := by
          have := congrArg Prod.fst h
          simpa using this.symm
        subst hc
        refine ⟨chain'_append_link (edge g) path t hch hlink, t, ?_, ?_⟩
        · exact List.getLast?_concat path
        · rw [List.dropLast_concat]
          exact (hpv t).mp hvis
      · rw [if_neg hvis] at h
        by_cases hvd : t ∈ visited
        · rw [if_pos hvd] at h
          simp at h
        · rw [if_neg hvd] at h
          cases hin : dfsList g fuel (depsOf g t) (path ++ [t]) (t :: visiting)
            visited with
          | mk o vd2 =>
            cases o with
            | none =>
              rw [hin] at h
              simp at h
            | some c2 =>
              rw [hin] at h
              have hc : c2 = c := by
                have := congrArg Prod.fst h
                simpa using this
              subst hc
              refine ih.2 (depsOf g t) (path ++ [t]) (t :: visiting) visited
                c2 vd2 hin ?_ ?_ ?_
              · intro x
                rw [List.mem_cons, List.mem_append, List.mem_singleton, hpv x]
                tauto
              · exact chain'_append_link (edge g) path t hch hlink
              · intro d hd l hl
                rw [List.getLast?_concat] at hl
                have hlt : t = l := Option.some.inj hl
                subst hlt
                exact hd
    refine ⟨hV, ?_⟩
    intro ds
    induction ds with
    | nil =>
      intro path visiting visited c vd h
      simp [dfsList] at h
    | cons d rest ihds =>
      intro path visiting visited c vd h hpv hch hds
      rw [dfsList] at h
      cases hdv : dfsVisit g (fuel + 1) d path visiting visited with
      | mk o vd2 =>
        cases o with
        | some c2 =>
          rw [hdv] at h
          have hc : c2 = c := by
            have := congrArg Prod.fst h
            simpa using this
          subst hc
          exact hV d path visiting visited c2 vd2 hdv hpv hch
            (hds d (List.mem_cons_self _ _))
        | none =>
          rw [hdv] at h
          exact ihds path visiting vd2 c vd h hpv hch
            (fun d2 h2 => hds d2 (List.mem_cons_of_mem _ h2))

theorem detectCycleGo_some (g : Graph) : ∀ ts visited c,
    detectCycleGo g ts visited = some c →
    List.Chain' (edge g) c ∧ ∃ l, c.getLast? = some l ∧ l ∈ c.dropLast := by
  intro ts
  induction ts with
  | nil =>
    intro visited c h
    simp [detectCycleGo] at h
  | cons t rest ih =>
    intro visited c h
    rw [detectCycleGo] at h
    cases hdv : dfsVisit g (g.length + 1) t [] [] visited with
    | mk o vd2 =>
      cases o with
      | some c2 =>
        rw [hdv] at h
        have hc : c2 = c := Option.some.inj h
        subst hc
        exact (dfs_some_sound g (g.length + 1)).1 t [] [] visited c2 vd2 hdv
          (fun x => Iff.rfl) List.chain'_nil (fun l hl => by simp at hl)
      | none =>
        rw [hdv] at h
        exact ih vd2 c h

theorem detectCycle_some_sound (g : Graph) (c : List String)
    (h : detectCycle g = some c) :
    (∃ t0, Relation.TransGen (edge g) t0 t0) ∧
    List.Chain' (edge g) c ∧ ∃ l, c.getLast? = some l ∧ l ∈ c.dropLast := by
  have hs := detectCycleGo_some g (graphKeys g) [] c h
  obtain ⟨hch, l, hlast, hmem⟩ := hs
  exact ⟨⟨l, cycle_of_chain_shape (edge g) c hch l hlast hmem⟩, hch, l, hlast, hmem⟩

theorem depsClosedList_nil (g : Graph) : DepsClosedList g [] := by
  intro i hi
  simp at hi

theorem depsClosedList_append (g : Graph) (vl : List String) (t : String)
    (hcb : DepsClosedList g vl) (hdeps : ∀ d ∈ depsOf g t, d ∈ vl) :
    DepsClosedList g (vl ++ [t]) := by
  intro i hi
  have hi2 : i < vl.length + 1 := by simpa using hi
  by_cases hri : i < vl.length
  · have hget : (vl ++ [t]).get ⟨i, hi⟩ = vl.get ⟨i, hri⟩ := by
      rw [List.get_eq_getElem, List.get_eq_getElem]
      exact List.getElem_append_left hri
    rw [hget]
    intro d hd
    rw [List.take_append_of_le_length (le_of_lt hri)]
    exact hcb i hri d hd
  · have hie : i = vl.length := by omega
    subst hie
    have hget : (vl ++ [t]).get ⟨vl.length, hi⟩ = t := by
      rw [List.get_eq_getElem]
      simp
    rw [hget]
    intro d hd
    rw [List.take_append_of_le_length (le_refl _), List.take_length]
    exact hdeps d hd

theorem indexOf_lt_of_mem_take {b : String} : ∀ (l : List String) (n : ℕ),
    b ∈ l.take n → l.indexOf b < n := by
  intro l
  induction l with
  | nil =>
    intro n h
    simp at h
  | cons a l ih =>
    intro n h
    cases n with
    | zero => simp at h
    | succ m =>
      rw [List.take_succ_cons] at h
      by_cases hab : b = a
      · subst hab
        rw [List.indexOf_cons_self]
        omega
      · rcases List.mem_cons.mp h with h1 | h2
        · exact absurd h1 hab
        · rw [List.indexOf_cons_ne _ (Ne.symm hab)]
          have := ih m h2
          omega

theorem depsClosedList_edge_index (g : Graph) (vl : List String)
    (hcb : DepsClosedList g vl) (a b : String)
    (hab : edge g a b) (ha : a ∈ vl) :
    b ∈ vl ∧ vl.indexOf b < vl.indexOf a := by
  have hia : vl.indexOf a < vl.length := List.indexOf_lt_length.mpr ha
  have hga : vl.get ⟨vl.indexOf a, hia⟩ = a := List.indexOf_get hia
  have hb : b ∈ vl.take (vl.indexOf a) := by
    apply hcb (vl.indexOf a) hia
    rw [hga]
    exact hab
  exact ⟨List.mem_of_mem_take hb, indexOf_lt_of_mem_take vl _ hb⟩

theorem depsClosedList_transGen_index (g : Graph) (vl : List String)
    (hcb : DepsClosedList g vl) (a b : String)
    (hab : Relation.TransGen (edge g) a b) (ha : a ∈ vl) :
    b ∈ vl ∧ vl.indexOf b < vl.indexOf a := by
  induction hab with
  | single he => exact depsClosedList_edge_index g vl hcb _ _ he ha
  | tail hab2 he ih =>
    obtain ⟨hc, hlt⟩ := ih
    obtain ⟨hb2, hlt2⟩ := depsClosedList_edge_index g vl hcb _ _ he hc
    exact ⟨hb2, lt_trans hlt2 hlt⟩

theorem no_cycle_of_depsClosedList (g : Graph) (vl : List String)
    (hcb : DepsClosedList g vl) (t0 : String)
    (ht0 : t0 ∈ vl) : ¬ Relation.TransGen (edge g) t0 t0 := by
  intro hcyc
  have := (depsClosedList_transGen_index g vl hcb t0 t0 hcyc ht0).2
  exact lt_irrefl _ this

theorem dfs_none_inv (g : Graph) : ∀ fuel : ℕ,
    (∀ t path visiting visited vd,
      dfsVisit g fuel t path visiting visited = (none, vd) →
      freeKeys g visiting < fuel →
      DepsClosedList g visited →
      (∀ x ∈ visited, x ∉ visiting) →
      visited.Nodup →
      visited <+: vd ∧ t ∈ vd ∧ DepsClosedList g vd ∧
        (∀ x ∈ vd, x ∉ visiting) ∧ vd.Nodup) ∧
    (∀ ds path visiting visited vd,
      dfsList g fuel ds path visiting visited = (none, vd) →
      (ds ≠ [] → freeKeys g visiting < fuel) →
      DepsClosedList g visited →
      (∀ x ∈ visited, x ∉ visiting) →
      visited.Nodup →
      visited <+: vd ∧ (∀ d ∈ ds, d ∈ vd) ∧ DepsClosedList g vd ∧
        (∀ x ∈ vd, x ∉ visiting) ∧ vd.Nodup) := by
  intro fuel
  induction fuel with
  | zero =>
    constructor
    · intro t path visiting visited vd h hf
      exact absurd hf (Nat.not_lt_zero _)
    · intro ds path visiting visited vd h hf hcb hdisj hnd
      cases ds with
      | nil =>
        simp only [dfsList] at h
        obtain ⟨-, hv⟩ := Prod.mk.injEq .. ▸ (by exact h : ((none : Option (List String)), visited) = ((none : Option (List String)), vd))
        subst hv
        exact ⟨List.prefix_refl _, fun d hd => absurd hd (List.not_mem_nil d), hcb, hdisj, hnd⟩
      | cons d rest =>
        exact absurd (hf (by simp)) (Nat.not_lt_zero _)
  | succ fuel ih =>
    have hvisit : ∀ t path visiting visited vd,
        dfsVisit g (fuel + 1) t path visiting visited = (none, vd) →
        freeKeys g visiting < fuel + 1 →
        DepsClosedList g visited →
        (∀ x ∈ visited, x ∉ visiting) →
        visited.Nodup →
        visited <+: vd ∧ t ∈ vd ∧ DepsClosedList g vd ∧
          (∀ x ∈ vd, x ∉ visiting) ∧ vd.Nodup := by
      intro t path visiting visited vd h hf hcb hdisj hnd
      rw [dfsVisit] at h
      by_cases hv : t ∈ visiting
      · rw [if_pos hv] at h
        exact absurd (congrArg Prod.fst h) (by simp)
      · rw [if_neg hv] at h
        by_cases hvd : t ∈ visited
        · rw [if_pos hvd] at h
          have hveq : visited = vd := congrArg Prod.snd h
          subst hveq
          exact ⟨List.prefix_refl _, hvd, hcb, hdisj, hnd⟩
        · rw [if_neg hvd] at h
          cases hdl : dfsList g fuel (depsOf g t) (path ++ [t]) (t :: visiting) visited with
          | mk o vd1 =>
            cases o with
            | some c =>
              rw [hdl] at h
              exact absurd (congrArg Prod.fst h) (by simp)
            | none =>
              rw [hdl] at h
              have hveq : vd1 ++ [t] = vd := congrArg Prod.snd h
              have hfnext : depsOf g t ≠ [] → freeKeys g (t :: visiting) < fuel := by
                intro hne
                by_cases hk : t ∈ graphKeys g
                · have := freeKeys_cons_lt g t visiting hk hv
                  omega
                · exact absurd (depsOf_eq_nil_of_not_mem g t hk) hne
              have hdisj2 : ∀ x ∈ visited, x ∉ t :: visiting := by
                intro x hx
                rw [List.mem_cons]
                push_neg
                exact ⟨fun he => hvd (he ▸ hx), hdisj x hx⟩
              obtain ⟨hpre1, hds1, hcb1, hdisj1, hnd1⟩ :=
                ih.2 (depsOf g t) (path ++ [t]) (t :: visiting) visited vd1 hdl hfnext hcb hdisj2 hnd
              subst hveq
              have htno : t ∉ vd1 := fun hmem =>
                (hdisj1 t hmem) (List.mem_cons_self t visiting)
              refine ⟨hpre1.trans (List.prefix_append vd1 [t]), by simp, ?_, ?_, ?_⟩
              · exact depsClosedList_append g vd1 t hcb1 hds1
              · intro x hx
                rcases List.mem_append.mp hx with hx1 | hx2
                · exact fun hin => (hdisj1 x hx1) (List.mem_cons_of_mem t hin)
                · have hxe : x = t := by simpa using hx2
                  exact hxe ▸ hv
              · rw [List.nodup_append]
                exact ⟨hnd1, List.nodup_singleton t, by
                  intro x hx1 hx2
                  have hxe : x = t := by simpa using hx2
                  exact htno (hxe ▸ hx1)⟩
    refine ⟨hvisit, ?_⟩
    intro ds
    induction ds with
    | nil =>
      intro path visiting visited vd h hf hcb hdisj hnd
      simp only [dfsList] at h
      have hveq : visited = vd := congrArg Prod.snd h
      subst hveq
      exact ⟨List.prefix_refl _, fun d hd => absurd hd (List.not_mem_nil d), hcb, hdisj, hnd⟩
    | cons d rest ihl =>
      intro path visiting visited vd h hf hcb hdisj hnd
      rw [dfsList] at h
      cases hdv : dfsVisit g (fuel + 1) d path visiting visited with
      | mk o vd1 =>
        cases o with
        | some c =>
          rw [hdv] at h
          exact absurd (congrArg Prod.fst h) (by simp)
        | none =>
          rw [hdv] at h
          have hfc : freeKeys g visiting < fuel + 1 := hf (by simp)
          obtain ⟨hpre1, hd1, hcb1, hdisj1, hnd1⟩ :=
            hvisit d path visiting visited vd1 hdv hfc hcb hdisj hnd
          obtain ⟨hpre2, hds2, hcb2, hdisj2, hnd2⟩ :=
            ihl path visiting vd1 vd h (fun _ => hfc) hcb1 hdisj1 hnd1
          refine ⟨hpre1.trans hpre2, ?_, hcb2, hdisj2, hnd2⟩
          intro d2 hd2
          rcases List.mem_cons.mp hd2 with hde | hdr
          · exact hde ▸ hpre2.subset hd1
          · exact hds2 d2 hdr

theorem freeKeys_nil (g : Graph) : freeKeys g [] = g.length := by
  unfold freeKeys
  have : ∀ l : List String, l.countP (fun x => decide (x ∉ ([] : List String))) = l.length := by
    intro l
    apply List.countP_eq_length.mpr
    intro a _
    simp
  rw [this]
  unfold graphKeys
  exact List.length_map _ _

theorem detectCycleGo_none (g : Graph) : ∀ ts visited,
    detectCycleGo g ts visited = none →
    DepsClosedList g visited →
    visited.Nodup →
    ∃ vl, visited <+: vl ∧ DepsClosedList g vl ∧ vl.Nodup ∧
      ∀ t ∈ ts, t ∈ vl := by
  intro ts
  induction ts with
  | nil =>
    intro visited h hcb hnd
    exact ⟨visited, List.prefix_refl _, hcb, hnd,
      fun t ht => absurd ht (List.not_mem_nil t)⟩
  | cons t rest ih =>
    intro visited h hcb hnd
    rw [detectCycleGo] at h
    cases hdv : dfsVisit g (g.length + 1) t [] [] visited with
    | mk o vd =>
      cases o with
      | some c =>
        rw [hdv] at h
        simp at h
      | none =>
        rw [hdv] at h
        have hfree : freeKeys g ([] : List String) < g.length + 1 := by
          rw [freeKeys_nil]
          omega
        obtain ⟨hpre1, ht1, hcb1, -, hnd1⟩ :=
          (dfs_none_inv g (g.length + 1)).1 t [] [] visited vd hdv hfree hcb
            (fun x _ => List.not_mem_nil x) hnd
        obtain ⟨vl, hpre2, hcb2, hnd2, hsub2⟩ := ih vd h hcb1 hnd1
        refine ⟨vl, hpre1.trans hpre2, hcb2, hnd2, ?_⟩
        intro t2 ht2
        rcases List.mem_cons.mp ht2 with hte | htr
        · exact hte ▸ hpre2.subset ht1
        · exact hsub2 t2 htr

theorem transGen_first_edge {α : Type} {r : α → α → Prop} {a b : α}
    (h : Relation.TransGen r a b) : ∃ c, r a c := by
  induction h with
  | single he => exact ⟨_, he⟩
  | tail _ _ ih => exact ih

theorem detectCycle_none_complete (g : Graph)
    (h : detectCycle g = none) : Acyclic g := by
  obtain ⟨vl, -, hcb, -, hsub⟩ :=
    detectCycleGo_none g (graphKeys g) [] h (depsClosedList_nil g) List.nodup_nil
  intro t0 hcyc
  obtain ⟨c, hec⟩ := transGen_first_edge hcyc
  have ht0 : t0 ∈ graphKeys g := mem_graphKeys_of_edge g t0 c hec
  exact no_cycle_of_depsClosedList g vl hcb t0 (hsub t0 ht0) hcyc

theorem acyclic_of_rank (g : Graph) (rank : String → ℕ)
    (h : ∀ a b, edge g a b → rank b < rank a) : Acyclic g := by
  intro t hc
  have key : ∀ x y, Relation.TransGen (edge g) x y → rank y < rank x := by
    intro x y hxy
    induction hxy with
    | single he => exact h _ _ he
    | tail _ he ih => exact lt_trans (h _ _ he) ih
  exact lt_irrefl _ (key t t hc)

theorem gchain_acyclic : Acyclic gchain := by
  apply acyclic_of_rank gchain
    (fun s => if s = "workspaces" then 0 else if s = "projects" then 1 else 2)
  intro a b he
  have hmem : a ∈ graphKeys gchain := mem_graphKeys_of_edge gchain a b he
  have hmem2 : a = "workspaces" ∨ a = "projects" ∨ a = "states" := by
    simpa [graphKeys, gchain] using hmem
  rcases hmem2 with ha | ha | ha <;> subst ha
  · exact absurd he (by simp [edge, depsOf, findNode, gchain])
  · have hb : b = "workspaces" := by simpa [edge, depsOf, findNode, gchain] using he
    subst hb
    decide
  · have hb : b = "projects" := by simpa [edge, depsOf, findNode, gchain] using he
    subst hb
    decide

/-- C2: for every dependency graph containing a cycle (a table reachable
from itself through non-nullable dependency edges), `detectCycle` returns
some path `p` that is a chain of dependency edges whose last table already
occurs earlier in `p` (so the suffix of `p` from that earlier occurrence
is a concrete cycle); for every acyclic graph it returns none.  The
returned path does not in general begin and end at the same table: it is
the whole DFS path from the search root, of which only a suffix is the
cycle. -/
theorem detectCycle_correct (g : Graph) :
    ((∃ t0, Relation.TransGen (edge g) t0 t0) →
      ∃ p, detectCycle g = some p ∧ List.Chain' (edge g) p ∧
        ∃ l, p.getLast? = some l ∧ l ∈ p.dropLast) ∧
    (Acyclic g → detectCycle g = none) := by
  constructor
  · rintro ⟨t0, hc⟩
    cases hd : detectCycle g with
    | none => exact absurd hc (detectCycle_none_complete g hd t0)
    | some p =>
      obtain ⟨-, hshape⟩ := detectCycle_some_sound g p hd
      exact ⟨p, rfl, hshape⟩
  · intro hac
    cases hd : detectCycle g with
    | none => rfl
    | some p =>
      obtain ⟨⟨t0, hc⟩, -⟩ := detectCycle_some_sound g p hd
      exact absurd hc (hac t0)

/-- C2 counterexample to the frozen claim's "begins and ends at the same
table": on `gcex` (which contains the cycle b → c → b), `detectCycle`
returns the path a, b, c, b — its first entry is "a", its last is "b", and
they differ.  Only the suffix b, c, b of the returned path is a cycle. -/
theorem detectCycle_counterexample :
    (∃ t0, Relation.TransGen (edge gcex) t0 t0) ∧
    detectCycle gcex = some ["a", "b", "c", "b"] ∧
    (["a", "b", "c", "b"] : List String).head? = some "a" ∧
    (["a", "b", "c", "b"] : List String).getLast? = some "b" ∧
    "a" ≠ "b" := by
  have hbc : edge gcex "b" "c" := by decide
  have hcb : edge gcex "c" "b" := by decide
  refine ⟨⟨"b", Relation.TransGen.head hbc (Relation.TransGen.single hcb)⟩,
    ?_, by decide, by decide, by decide⟩
  simp [detectCycle, detectCycleGo, dfsVisit, dfsList, gcex, graphKeys,
    depsOf, findNode]

theorem detectCycle_correct_witness :
    (∃ p, detectCycle gcex = some p ∧ List.Chain' (edge gcex) p ∧
      ∃ l, p.getLast? = some l ∧ l ∈ p.dropLast) ∧
    detectCycle gchain = none := by
  have hbc : edge gcex "b" "c" := by decide
  have hcb : edge gcex "c" "b" := by decide
  refine ⟨(detectCycle_correct gcex).1
    ⟨"b", Relation.TransGen.head hbc (Relation.TransGen.single hcb)⟩,
    (detectCycle_correct gchain).2 gchain_acyclic⟩

theorem updateDeg_map_fst (deg : List (String × Int)) (d : String) :
    (updateDeg deg d).map Prod.fst = deg.map Prod.fst := by
  induction deg with
  | nil => rfl
  | cons p rest ih =>
    rw [updateDeg_cons]
    simp only [List.map_cons, ih]
    congr 1
    split <;> rfl

theorem lookupDeg_updateDeg_ne (deg : List (String × Int)) (d x : String)
    (h : x ≠ d) : lookupDeg (updateDeg deg d) x = lookupDeg deg x := by
  induction deg with
  | nil => rfl
  | cons p rest ih =>
    by_cases hpx : p.1 = x
    · have hpd : ¬ (p.1 == d) = true := by
        simp only [beq_iff_eq]
        exact fun he => h (hpx ▸ he)
      rw [updateDeg_cons, if_neg hpd, lookupDeg_cons_pos p (updateDeg rest d) x hpx,
        lookupDeg_cons_pos p rest x hpx]
    · by_cases hpd : (p.1 == d) = true
      · rw [updateDeg_cons, if_pos hpd,
          lookupDeg_cons_neg (p.1, p.2 - 1) _ x hpx, lookupDeg_cons_neg p rest x hpx]
        exact ih
      · rw [updateDeg_cons, if_neg hpd, lookupDeg_cons_neg p _ x hpx,
          lookupDeg_cons_neg p rest x hpx]
        exact ih

theorem processDependentsGo_map_fst (ds : List String) :
    ∀ deg ps, (processDependentsGo deg ps ds).1.map Prod.fst = deg.map Prod.fst := by
  induction ds with
  | nil =>
    intro deg ps
    rfl
  | cons d rest ih =>
    intro deg ps
    simp only [processDependentsGo]
    split
    · rw [ih]
      exact updateDeg_map_fst deg d
    · rw [ih]
      exact updateDeg_map_fst deg d

theorem processDependentsGo_lookup (ds : List String) (hnd : ds.Nodup) :
    ∀ deg ps x, lookupDeg (processDependentsGo deg ps ds).1 x =
      if x ∈ ds then (lookupDeg deg x).map (fun v => v - 1) else lookupDeg deg x := by
  induction ds with
  | nil =>
    intro deg ps x
    simp [processDependentsGo]
  | cons d rest ih =>
    intro deg ps x
    have hdr : d ∉ rest := (List.nodup_cons.mp hnd).1
    have hndr : rest.Nodup := (List.nodup_cons.mp hnd).2
    have hlk : ∀ ps2, lookupDeg (processDependentsGo (updateDeg deg d) ps2 rest).1 x =
        if x ∈ rest then (lookupDeg (updateDeg deg d) x).map (fun v => v - 1)
        else lookupDeg (updateDeg deg d) x := fun ps2 => ih hndr (updateDeg deg d) ps2 x
    have hgoal : ∀ ps2, lookupDeg (processDependentsGo (updateDeg deg d) ps2 rest).1 x =
        if x ∈ d :: rest then (lookupDeg deg x).map (fun v => v - 1)
        else lookupDeg deg x := by
      intro ps2
      rw [hlk ps2]
      by_cases hxd : x = d
      · subst hxd
        rw [if_neg hdr, if_pos (List.mem_cons_self x rest)]
        exact lookupDeg_updateDeg_self deg x
      · rw [lookupDeg_updateDeg_ne deg d x hxd]
        by_cases hxr : x ∈ rest
        · rw [if_pos hxr, if_pos (List.mem_cons_of_mem d hxr)]
        · rw [if_neg hxr, if_neg (by
            rw [List.mem_cons]
            push_neg
            exact ⟨hxd, hxr⟩)]
    simp only [processDependentsGo]
    split
    · exact hgoal _
    · exact hgoal _

theorem processDependentsGo_pushed (ds : List String) (hnd : ds.Nodup) :
    ∀ deg ps, (processDependentsGo deg ps ds).2 =
      ps ++ ds.filter (fun d => decide (lookupDeg deg d = some 1)) := by
  induction ds with
  | nil =>
    intro deg ps
    simp [processDependentsGo]
  | cons d rest ih =>
    intro deg ps
    have hdr : d ∉ rest := (List.nodup_cons.mp hnd).1
    have hndr : rest.Nodup := (List.nodup_cons.mp hnd).2
    have hcond : (lookupDeg (updateDeg deg d) d == some 0) =
        decide (lookupDeg deg d = some 1) := by
      rw [lookupDeg_updateDeg_self]
      cases hv : lookupDeg deg d with
      | none => simp
      | some v =>
        simp only [Option.map_some', beq_iff_eq, Option.some.injEq]
        by_cases h1 : v = 1
        · subst h1
          norm_num
        · have h0 : ¬ (v - 1 = 0) := by omega
          simp [h0, h1]
    have hfilt : rest.filter (fun x => decide (lookupDeg (updateDeg deg d) x = some 1)) =
        rest.filter (fun x => decide (lookupDeg deg x = some 1)) := by
      apply List.filter_congr
      intro x hx
      have hxd : x ≠ d := fun he => hdr (he ▸ hx)
      rw [lookupDeg_updateDeg_ne deg d x hxd]
    simp only [processDependentsGo]
    by_cases hpush : lookupDeg deg d = some 1
    · have hb : (lookupDeg (updateDeg deg d) d == some 0) = true := by
        rw [hcond]
        simpa using hpush
      rw [if_pos hb, ih hndr, hfilt, List.filter_cons_of_pos (by simpa using hpush)]
      simp
    · have hb : ¬ ((lookupDeg (updateDeg deg d) d == some 0) = true) := by
        rw [hcond]
        simpa using hpush
      rw [if_neg hb, ih hndr, hfilt, List.filter_cons_of_neg (by simpa using hpush)]

theorem filter_not_mem_append_of_not_mem (deps acc : List String) (t : String)
    (ht : t ∉ deps) :
    deps.filter (fun d => decide (d ∉ acc ++ [t])) =
      deps.filter (fun d => decide (d ∉ acc)) := by
  apply List.filter_congr
  intro d hd
  have hdt : d ≠ t := fun he => ht (he ▸ hd)
  simp only [decide_eq_decide, List.mem_append, List.mem_singleton]
  constructor
  · intro hn hm
    exact hn (Or.inl hm)
  · intro hn hm
    rcases hm with hm | hm
    · exact hn hm
    · exact hdt hm

theorem filter_not_mem_append_length (deps acc : List String) (t : String)
    (hnd : deps.Nodup) (ht : t ∈ deps) (hna : t ∉ acc) :
    (deps.filter (fun d => decide (d ∉ acc ++ [t]))).length + 1 =
      (deps.filter (fun d => decide (d ∉ acc))).length := by
  induction deps with
  | nil => exact absurd ht (List.not_mem_nil t)
  | cons d rest ih =>
    have hdr : d ∉ rest := (List.nodup_cons.mp hnd).1
    have hndr : rest.Nodup := (List.nodup_cons.mp hnd).2
    by_cases hdt : d = t
    · subst hdt
      have h1 : (decide (d ∉ acc ++ [d])) = false := by simp
      have h2 : (decide (d ∉ acc)) = true := by simpa using hna
      rw [List.filter_cons, List.filter_cons, h1, h2]
      simp only [Bool.false_eq_true, if_false, if_true, List.length_cons]
      rw [filter_not_mem_append_of_not_mem rest acc d hdr]
    · have htr : t ∈ rest := by
        rcases List.mem_cons.mp ht with he | hm
        · exact absurd he.symm hdt
        · exact hm
      have hcond : (decide (d ∉ acc ++ [t])) = (decide (d ∉ acc)) := by
        simp only [decide_eq_decide, List.mem_append, List.mem_singleton]
        constructor
        · intro hn hm
          exact hn (Or.inl hm)
        · intro hn hm
          rcases hm with hm | hm
          · exact hn hm
          · exact hdt hm
      rw [List.filter_cons, List.filter_cons, hcond]
      cases hc : (decide (d ∉ acc)) with
      | true =>
        simp only [if_true, List.length_cons]
        have := ih hndr htr
        omega
      | false =>
        simp only [Bool.false_eq_true, if_false]
        exact ih hndr htr

theorem length_eq_one_of_nodup_all_eq {l : List String} {t : String}
    (hnd : l.Nodup) (hall : ∀ x ∈ l, x = t) (hne : t ∈ l) : l.length = 1 := by
  cases l with
  | nil => exact absurd hne (List.not_mem_nil t)
  | cons x rest =>
    have hx : x = t := hall x (List.mem_cons_self x rest)
    have hrest : rest = [] := by
      apply List.eq_nil_iff_forall_not_mem.mpr
      intro y hy
      have hyt : y = t := hall y (List.mem_cons_of_mem x hy)
      exact (List.nodup_cons.mp hnd).1 ((hx.trans hyt.symm) ▸ hy)
    rw [hrest]
    rfl

theorem exists_findNode_of_mem_keys (g : Graph) (x : String)
    (hx : x ∈ graphKeys g) :
    ∃ nd, findNode g x = some nd ∧ nd ∈ g ∧ nd.name = x ∧
      depsOf g x = nd.dependencies ∧ dependentsOf g x = nd.dependents := by
  obtain ⟨n, hn, hname⟩ := List.mem_map.mp hx
  have hsome : (findNode g x).isSome := by
    unfold findNode
    apply List.find?_isSome.mpr
    exact ⟨n, hn, by simpa using hname⟩
  cases hf : findNode g x with
  | none => rw [hf] at hsome; simp at hsome
  | some nd =>
    refine ⟨nd, rfl, List.mem_of_find?_eq_some hf, by simpa using List.find?_some hf, ?_, ?_⟩
    · unfold depsOf
      rw [hf]
      rfl
    · unfold dependentsOf
      rw [hf]
      rfl

theorem findNode_self (g : Graph) (hnd : (graphKeys g).Nodup) (n : TableNode)
    (hn : n ∈ g) : findNode g n.name = some n := by
  induction g with
  | nil => exact absurd hn (List.not_mem_nil n)
  | cons m rest ih =>
    have hnd2 : (graphKeys rest).Nodup ∧ m.name ∉ graphKeys rest := by
      have := hnd
      unfold graphKeys at this ⊢
      rw [List.map_cons, List.nodup_cons] at this
      exact ⟨this.2, this.1⟩
    rcases List.mem_cons.mp hn with he | hm
    · subst he
      unfold findNode
      rw [List.find?_cons_of_pos _ (by simp)]
    · by_cases hmn : m.name = n.name
      · exact absurd (hmn ▸ List.mem_map.mpr ⟨n, hm, rfl⟩) hnd2.2
      · unfold findNode
        rw [List.find?_cons_of_neg _ (by simpa using hmn)]
        exact ih hnd2.1 hm

theorem keys_name_ne_empty (g : Graph) (hwf : WellFormedGraph g) :
    ∀ t ∈ graphKeys g, t ≠ "" := by
  intro t ht
  obtain ⟨n, hn, hname⟩ := List.mem_map.mp ht
  exact hname ▸ (hwf.2 n hn).1

theorem depsOf_nodup (g : Graph) (hwf : WellFormedGraph g) (x : String) :
    (depsOf g x).Nodup := by
  unfold depsOf
  cases hf : findNode g x with
  | none => exact List.nodup_nil
  | some nd =>
    have hnd : nd ∈ g := List.mem_of_find?_eq_some hf
    exact (hwf.2 nd hnd).2.1

theorem dependentsOf_nodup (g : Graph) (hwf : WellFormedGraph g) (x : String) :
    (dependentsOf g x).Nodup := by
  unfold dependentsOf
  cases hf : findNode g x with
  | none => exact List.nodup_nil
  | some nd =>
    have hnd : nd ∈ g := List.mem_of_find?_eq_some hf
    exact (hwf.2 nd hnd).2.2.1

theorem mem_graphKeys_of_mem_depsOf (g : Graph) (hc : ClosedGraph g)
    (x d : String) (hd : d ∈ depsOf g x) : d ∈ graphKeys g := by
  unfold depsOf at hd
  cases hf : findNode g x with
  | none => rw [hf] at hd; exact absurd hd (List.not_mem_nil d)
  | some nd =>
    rw [hf] at hd
    exact (hc.2 nd (List.mem_of_find?_eq_some hf)).1 d hd

theorem mem_graphKeys_of_mem_dependentsOf (g : Graph) (hc : ClosedGraph g)
    (x d : String) (hd : d ∈ dependentsOf g x) : d ∈ graphKeys g := by
  unfold dependentsOf at hd
  cases hf : findNode g x with
  | none => rw [hf] at hd; exact absurd hd (List.not_mem_nil d)
  | some nd =>
    rw [hf] at hd
    exact (hc.2 nd (List.mem_of_find?_eq_some hf)).2 d hd

theorem mem_dependentsOf_iff (g : Graph) (hwf : WellFormedGraph g)
    (x t : String) (hx : x ∈ graphKeys g) (ht : t ∈ graphKeys g) :
    x ∈ dependentsOf g t ↔ t ∈ depsOf g x := by
  obtain ⟨nx, -, hnxg, hnxname, hnxdeps, -⟩ := exists_findNode_of_mem_keys g x hx
  obtain ⟨nt, -, hntg, hntname, -, hntdept⟩ := exists_findNode_of_mem_keys g t ht
  rw [hnxdeps, hntdept]
  have hmirror := (hwf.2 nx hnxg).2.2.2 nt hntg
  rw [hntname, hnxname] at hmirror
  exact hmirror.symm

theorem depsClosedList_mem_subset (g : Graph) (vl : List String)
    (hcb : DepsClosedList g vl) (x : String) (hx : x ∈ vl) :
    ∀ d ∈ depsOf g x, d ∈ vl := by
  obtain ⟨i, hget⟩ := List.mem_iff_get.mp hx
  intro d hd
  have := hcb i i.isLt d (by rw [hget]; exact hd)
  exact List.take_subset i vl this

theorem cycle_of_successors (g : Graph) (S : List String) (hS : S ≠ [])
    (hsucc : ∀ x ∈ S, ∃ d, edge g x d ∧ d ∈ S) :
    ∃ t, Relation.TransGen (edge g) t t := by
  classical
  obtain ⟨x0, hx0⟩ := List.exists_mem_of_ne_nil S hS
  set F : String → String := fun x =>
    if h : ∃ d, edge g x d ∧ d ∈ S then h.choose else x with hFdef
  have hF : ∀ x ∈ S, edge g x (F x) ∧ F x ∈ S := by
    intro x hx
    have h : ∃ d, edge g x d ∧ d ∈ S := hsucc x hx
    have : F x = h.choose := by
      rw [hFdef]
      exact dif_pos h
    rw [this]
    exact h.choose_spec
  have hiter : ∀ i, F^[i] x0 ∈ S := by
    intro i
    induction i with
    | zero => simpa using hx0
    | succ i ih =>
      rw [Function.iterate_succ_apply']
      exact (hF _ ih).2
  have htrans : ∀ j i, i < j → Relation.TransGen (edge g) (F^[i] x0) (F^[j] x0) := by
    intro j
    induction j with
    | zero =>
      intro i hi
      exact absurd hi (Nat.not_lt_zero i)
    | succ j ihj =>
      intro i hi
      have hedge : edge g (F^[j] x0) (F^[j + 1] x0) := by
        rw [Function.iterate_succ_apply']
        exact (hF _ (hiter j)).1
      rcases Nat.lt_succ_iff_lt_or_eq.mp hi with hlt | heq
      · exact Relation.TransGen.tail (ihj i hlt) hedge
      · subst heq
        exact Relation.TransGen.single hedge
  have hcard : (S.toFinset).card < (Finset.univ : Finset (Fin (S.length + 1))).card := by
    rw [Finset.card_univ, Fintype.card_fin]
    have := S.toFinset_card_le
    omega
  have hmaps : ∀ i : Fin (S.length + 1), i ∈ (Finset.univ : Finset (Fin (S.length + 1))) →
      F^[(i : ℕ)] x0 ∈ S.toFinset := by
    intro i _
    rw [List.mem_toFinset]
    exact hiter i
  obtain ⟨i, -, j, -, hij, heq⟩ :=
    Finset.exists_ne_map_eq_of_card_lt_of_maps_to hcard hmaps
  have hvij : (i : ℕ) ≠ (j : ℕ) := fun hv => hij (Fin.ext hv)
  rcases Nat.lt_or_ge (i : ℕ) (j : ℕ) with hlt | hge
  · exact ⟨F^[(j : ℕ)] x0, heq ▸ htrans (j : ℕ) (i : ℕ) hlt⟩
  · have hlt2 : (j : ℕ) < (i : ℕ) := lt_of_le_of_ne hge (Ne.symm hvij)
    exact ⟨F^[(i : ℕ)] x0, heq.symm ▸ htrans (i : ℕ) (j : ℕ) hlt2⟩

theorem perm_of_nodup_mem_iff (l1 l2 : List String) (h1 : l1.Nodup)
    (h2 : l2.Nodup) (hmem : ∀ x, x ∈ l1 ↔ x ∈ l2) : l1.Perm l2 := by
  apply List.perm_of_nodup_nodup_toFinset_eq h1 h2
  apply Finset.ext
  intro a
  rw [List.mem_toFinset, List.mem_toFinset]
  exact hmem a

theorem lookupDeg_initInDegree (g : Graph) (x : String) :
    lookupDeg (initInDegree g) x =
      (findNode g x).map (fun n => (n.dependencies.length : Int)) := by
  induction g with
  | nil => rfl
  | cons n rest ih =>
    by_cases hn : n.name = x
    · rw [show initInDegree (n :: rest) =
          (n.name, (n.dependencies.length : Int)) :: initInDegree rest from rfl]
      rw [lookupDeg_cons_pos _ _ _ hn]
      unfold findNode
      rw [List.find?_cons_of_pos _ (by simpa using hn)]
      rfl
    · rw [show initInDegree (n :: rest) =
          (n.name, (n.dependencies.length : Int)) :: initInDegree rest from rfl]
      rw [lookupDeg_cons_neg _ _ _ hn]
      unfold findNode at ih ⊢
      rw [List.find?_cons_of_neg _ (by simpa using hn)]
      exact ih

theorem kahn_base (g : Graph) (hwf : WellFormedGraph g) (hac : Acyclic g)
    (acc : List String)
    (hqiff : ∀ x, ¬(x ∈ graphKeys g ∧ x ∉ acc ∧ ∀ d ∈ depsOf g x, d ∈ acc))
    (hcb : DepsClosedList g acc) (hand : acc.Nodup)
    (hasub : ∀ x ∈ acc, x ∈ graphKeys g) :
    DepsClosedList g acc ∧ acc.Nodup ∧ (∀ x, x ∈ acc ↔ x ∈ graphKeys g) := by
  refine ⟨hcb, hand, fun x => ⟨fun hx => hasub x hx, fun hx => ?_⟩⟩
  by_contra hxacc
  have hxS : x ∈ (graphKeys g).filter (fun y => decide (y ∉ acc)) :=
    List.mem_filter.mpr ⟨hx, by simpa using hxacc⟩
  have hSne : (graphKeys g).filter (fun y => decide (y ∉ acc)) ≠ [] := by
    intro he
    rw [he] at hxS
    exact absurd hxS (List.not_mem_nil x)
  have hsucc : ∀ y ∈ (graphKeys g).filter (fun y => decide (y ∉ acc)),
      ∃ d, edge g y d ∧ d ∈ (graphKeys g).filter (fun y => decide (y ∉ acc)) := by
    intro y hy
    have hyk : y ∈ graphKeys g := (List.mem_filter.mp hy).1
    have hyacc : y ∉ acc := by simpa using (List.mem_filter.mp hy).2
    have hny := hqiff y
    push_neg at hny
    obtain ⟨d, hd, hdacc⟩ := hny hyk hyacc
    have hdk : d ∈ graphKeys g := mem_graphKeys_of_mem_depsOf g hwf.1 y d hd
    exact ⟨d, hd, List.mem_filter.mpr ⟨hdk, by simpa using hdacc⟩⟩
  obtain ⟨t, hcyc⟩ := cycle_of_successors g _ hSne hsucc
  exact hac t hcyc

theorem kahnLoop_correct (g : Graph) (hwf : WellFormedGraph g) (hac : Acyclic g) :
    ∀ n queue deg acc, queue.length + degSum deg ≤ n →
      deg.map Prod.fst = graphKeys g →
      (∀ x ∈ graphKeys g, lookupDeg deg x =
        some (((depsOf g x).filter (fun d => decide (d ∉ acc))).length : Int)) →
      queue.Nodup →
      (∀ x, x ∈ queue ↔ x ∈ graphKeys g ∧ x ∉ acc ∧ ∀ d ∈ depsOf g x, d ∈ acc) →
      DepsClosedList g acc →
      acc.Nodup →
      (∀ x ∈ acc, x ∈ graphKeys g) →
      DepsClosedList g (kahnLoop g queue deg acc) ∧
      (kahnLoop g queue deg acc).Nodup ∧
      (∀ x, x ∈ kahnLoop g queue deg acc ↔ x ∈ graphKeys g) := by
  intro n
  induction n with
  | zero =>
    intro queue deg acc hm hkeys hdeg hqnd hqiff hcb hand hasub
    have hq : queue = [] := by
      cases queue with
      | nil => rfl
      | cons t r => simp at hm
    subst hq
    rw [kahnLoop]
    exact kahn_base g hwf hac acc
      (fun x hx => by simpa using (hqiff x).mpr hx) hcb hand hasub
  | succ n ih =>
    intro queue deg acc hm hkeys hdeg hqnd hqiff hcb hand hasub
    cases queue with
    | nil =>
      rw [kahnLoop]
      exact kahn_base g hwf hac acc
        (fun x hx => by simpa using (hqiff x).mpr hx) hcb hand hasub
    | cons t rest =>
      have ht := (hqiff t).mp (List.mem_cons_self t rest)
      have htne : t ≠ "" := keys_name_ne_empty g hwf t ht.1
      have htrest : t ∉ rest := (List.nodup_cons.mp hqnd).1
      have hqnd2 : rest.Nodup := (List.nodup_cons.mp hqnd).2
      have hnds : (dependentsOf g t).Nodup := dependentsOf_nodup g hwf t
      have hpd : processDependents deg (dependentsOf g t) =
          processDependentsGo deg [] (dependentsOf g t) := rfl
      have hpushed : (processDependents deg (dependentsOf g t)).2 =
          (dependentsOf g t).filter (fun d => decide (lookupDeg deg d = some 1)) := by
        rw [hpd, processDependentsGo_pushed (dependentsOf g t) hnds deg []]
        rfl
      have hlk2 : ∀ x, lookupDeg (processDependents deg (dependentsOf g t)).1 x =
          if x ∈ dependentsOf g t then (lookupDeg deg x).map (fun v => v - 1)
          else lookupDeg deg x := by
        intro x
        rw [hpd]
        exact processDependentsGo_lookup (dependentsOf g t) hnds deg [] x
      have hkeys2 : (processDependents deg (dependentsOf g t)).1.map Prod.fst =
          graphKeys g := by
        rw [hpd, processDependentsGo_map_fst (dependentsOf g t) deg []]
        exact hkeys
      have hms := processDependents_measure_le deg (dependentsOf g t)
      have hm2 : (rest ++ (processDependents deg (dependentsOf g t)).2).length +
          degSum (processDependents deg (dependentsOf g t)).1 ≤ n := by
        rw [List.length_append]
        simp only [List.length_cons] at hm
        omega
      have hdeg2 : ∀ x ∈ graphKeys g,
          lookupDeg (processDependents deg (dependentsOf g t)).1 x =
          some (((depsOf g x).filter
            (fun d => decide (d ∉ acc ++ [t]))).length : Int) := by
        intro x hx
        have hmemds : x ∈ dependentsOf g t ↔ t ∈ depsOf g x :=
          mem_dependentsOf_iff g hwf x t hx ht.1
        by_cases hxdep : t ∈ depsOf g x
        · have hxds : x ∈ dependentsOf g t := hmemds.mpr hxdep
          rw [hlk2 x, if_pos hxds, hdeg x hx]
          simp only [Option.map_some', Option.some.injEq]
          have hflt := filter_not_mem_append_length (depsOf g x) acc t
            (depsOf_nodup g hwf x) hxdep ht.2.1
          omega
        · have hxds : x ∉ dependentsOf g t := fun hin => hxdep (hmemds.mp hin)
          rw [hlk2 x, if_neg hxds, hdeg x hx,
            filter_not_mem_append_of_not_mem (depsOf g x) acc t hxdep]
      have hdisj : ∀ x ∈ rest, x ∉ (processDependents deg (dependentsOf g t)).2 := by
        intro x hxr hxp
        rw [hpushed] at hxp
        have hx1 : lookupDeg deg x = some 1 := by
          simpa using (List.mem_filter.mp hxp).2
        have hxq := (hqiff x).mp (List.mem_cons_of_mem t hxr)
        have hcnt0 : ((depsOf g x).filter (fun d => decide (d ∉ acc))).length = 0 := by
          rw [List.length_eq_zero]
          rw [List.filter_eq_nil]
          intro a ha
          simpa using hxq.2.2 a ha
        rw [hdeg x hxq.1, hcnt0] at hx1
        have := Option.some.inj hx1
        norm_num at this
      have hqnd3 : (rest ++ (processDependents deg (dependentsOf g t)).2).Nodup := by
        rw [List.nodup_append]
        refine ⟨hqnd2, ?_, fun x hx1 hx2 => hdisj x hx1 hx2⟩
        rw [hpushed]
        exact hnds.filter _
      have hqiff2 : ∀ x, x ∈ rest ++ (processDependents deg (dependentsOf g t)).2 ↔
          x ∈ graphKeys g ∧ x ∉ acc ++ [t] ∧
            ∀ d ∈ depsOf g x, d ∈ acc ++ [t] := by
        intro x
        constructor
        · intro hx
          rcases List.mem_append.mp hx with hxr | hxp
          · have hxq := (hqiff x).mp (List.mem_cons_of_mem t hxr)
            have hxt : x ≠ t := fun he => htrest (he ▸ hxr)
            refine ⟨hxq.1, ?_, fun d hd => List.mem_append_left _ (hxq.2.2 d hd)⟩
            rw [List.mem_append]
            push_neg
            exact ⟨hxq.2.1, by simpa using hxt⟩
          · rw [hpushed] at hxp
            obtain ⟨hxds, hxlk⟩ := List.mem_filter.mp hxp
            have hx1 : lookupDeg deg x = some 1 := by simpa using hxlk
            have hxk : x ∈ graphKeys g :=
              mem_graphKeys_of_mem_dependentsOf g hwf.1 t x hxds
            have hxdep : t ∈ depsOf g x :=
              (mem_dependentsOf_iff g hwf x t hxk ht.1).mp hxds
            have hcnt1 : ((depsOf g x).filter (fun d => decide (d ∉ acc))).length = 1 := by
              rw [hdeg x hxk] at hx1
              exact_mod_cast Option.some.inj hx1
            obtain ⟨a, hfa⟩ := List.length_eq_one.mp hcnt1
            have htf : t ∈ (depsOf g x).filter (fun d => decide (d ∉ acc)) :=
              List.mem_filter.mpr ⟨hxdep, by simpa using ht.2.1⟩
            have hta : a = t := by
              rw [hfa] at htf
              have := List.mem_singleton.mp htf
              exact this.symm
            rw [hta] at hfa
            have hxnacc : x ∉ acc := fun hxacc =>
              ht.2.1 (depsClosedList_mem_subset g acc hcb x hxacc t hxdep)
            have hxt : x ≠ t := fun he => ht.2.1 (ht.2.2 t (he ▸ hxdep))
            refine ⟨hxk, ?_, ?_⟩
            · rw [List.mem_append]
              push_neg
              exact ⟨hxnacc, by simpa using hxt⟩
            · intro d hd
              by_cases hdacc : d ∈ acc
              · exact List.mem_append_left _ hdacc
              · have hdf : d ∈ (depsOf g x).filter (fun d => decide (d ∉ acc)) :=
                  List.mem_filter.mpr ⟨hd, by simpa using hdacc⟩
                rw [hfa] at hdf
                have hdt : d = t := List.mem_singleton.mp hdf
                exact List.mem_append_right _ (by simp [hdt])
        · rintro ⟨hxk, hxnacc2, hxdeps2⟩
          have hxnacc : x ∉ acc := fun h => hxnacc2 (List.mem_append_left _ h)
          have hxt : x ≠ t := fun he => hxnacc2 (List.mem_append_right _ (by simp [he]))
          by_cases hxdep : t ∈ depsOf g x
          · apply List.mem_append_right
            rw [hpushed]
            have hxds : x ∈ dependentsOf g t :=
              (mem_dependentsOf_iff g hwf x t hxk ht.1).mpr hxdep
            refine List.mem_filter.mpr ⟨hxds, ?_⟩
            have hall : ∀ y ∈ (depsOf g x).filter (fun d => decide (d ∉ acc)), y = t := by
              intro y hy
              obtain ⟨hyd, hyacc⟩ := List.mem_filter.mp hy
              have hyin := hxdeps2 y hyd
              rcases List.mem_append.mp hyin with h1 | h2
              · exact absurd h1 (by simpa using hyacc)
              · simpa using h2
            have htf : t ∈ (depsOf g x).filter (fun d => decide (d ∉ acc)) :=
              List.mem_filter.mpr ⟨hxdep, by simpa using ht.2.1⟩
            have hfnd : ((depsOf g x).filter (fun d => decide (d ∉ acc))).Nodup :=
              (depsOf_nodup g hwf x).filter _
            have hlen := length_eq_one_of_nodup_all_eq hfnd hall htf
            rw [hdeg x hxk, hlen]
            norm_num
          · apply List.mem_append_left
            have hdepsacc : ∀ d ∈ depsOf g x, d ∈ acc := by
              intro d hd
              have hdin := hxdeps2 d hd
              rcases List.mem_append.mp hdin with h1 | h2
              · exact h1
              · exact absurd (by simpa using h2 : d = t)
                  (fun he => hxdep (he ▸ hd))
            have hxq : x ∈ t :: rest := (hqiff x).mpr ⟨hxk, hxnacc, hdepsacc⟩
            rcases List.mem_cons.mp hxq with h1 | h2
            · exact absurd h1 hxt
            · exact h2
      have hcb2 : DepsClosedList g (acc ++ [t]) :=
        depsClosedList_append g acc t hcb ht.2.2
      have hand2 : (acc ++ [t]).Nodup := by
        rw [List.nodup_append]
        refine ⟨hand, List.nodup_singleton t, ?_⟩
        intro y hy1 hy2
        have hyt : y = t := List.mem_singleton.mp hy2
        exact ht.2.1 (hyt ▸ hy1)
      have hasub2 : ∀ x ∈ acc ++ [t], x ∈ graphKeys g := by
        intro x hx
        rcases List.mem_append.mp hx with h1 | h2
        · exact hasub x h1
        · have hxt : x = t := List.mem_singleton.mp h2
          exact hxt ▸ ht.1
      rw [kahnLoop, if_neg htne]
      exact ih (rest ++ (processDependents deg (dependentsOf g t)).2)
        (processDependents deg (dependentsOf g t)).1 (acc ++ [t])
        hm2 hkeys2 hdeg2 hqnd3 hqiff2 hcb2 hand2 hasub2

/-- C1: for every acyclic well-formed dependency graph (distinct nonempty
table names, every mentioned table a key, duplicate-free dependency and
dependent lists, and `dependencies` / `dependents` mirroring each other as
`buildTableDependencyGraph` guarantees), `getTableOrderForOperations`
returns a permutation of the graph's keys — every table exactly once — in
which every table's dependencies appear strictly earlier than the table
itself. -/
theorem getTableOrderForOperations_correct (g : Graph)
    (hwf : WellFormedGraph g) (hac : Acyclic g) :
    (getTableOrderForOperations g).Perm (graphKeys g) ∧
    ∀ nd ∈ g, ∀ d ∈ nd.dependencies,
      (getTableOrderForOperations g).indexOf d <
        (getTableOrderForOperations g).indexOf nd.name := by
  have hres : getTableOrderForOperations g =
      kahnLoop g ((graphKeys g).filter
        (fun t => lookupDeg (initInDegree g) t == some 0)) (initInDegree g) [] := rfl
  have hkeys0 : (initInDegree g).map Prod.fst = graphKeys g := by
    unfold initInDegree graphKeys
    rw [List.map_map]
    rfl
  have hdeg0 : ∀ x ∈ graphKeys g, lookupDeg (initInDegree g) x =
      some (((depsOf g x).filter
        (fun d => decide (d ∉ ([] : List String)))).length : Int) := by
    intro x hx
    obtain ⟨nd, hfnd, -, -, hdeps, -⟩ := exists_findNode_of_mem_keys g x hx
    rw [lookupDeg_initInDegree, hfnd, hdeps]
    simp only [Option.map_some', Option.some.injEq]
    congr 1
    rw [List.filter_eq_self.mpr (fun a _ => by simp)]
  have hqnd0 : ((graphKeys g).filter
      (fun t => lookupDeg (initInDegree g) t == some 0)).Nodup := hwf.1.1.filter _
  have hqiff0 : ∀ x, x ∈ (graphKeys g).filter
      (fun t => lookupDeg (initInDegree g) t == some 0) ↔
      x ∈ graphKeys g ∧ x ∉ ([] : List String) ∧
        ∀ d ∈ depsOf g x, d ∈ ([] : List String) := by
    intro x
    rw [List.mem_filter]
    constructor
    · rintro ⟨hxk, hx0⟩
      have h0 : lookupDeg (initInDegree g) x = some 0 := by simpa using hx0
      rw [hdeg0 x hxk] at h0
      have hl : ((depsOf g x).filter
          (fun d => decide (d ∉ ([] : List String)))).length = 0 := by
        exact_mod_cast Option.some.inj h0
      rw [List.filter_eq_self.mpr (fun a _ => by simp)] at hl
      have hnil : depsOf g x = [] := List.length_eq_zero.mp hl
      exact ⟨hxk, List.not_mem_nil x,
        fun d hd => absurd (hnil ▸ hd) (List.not_mem_nil d)⟩
    · rintro ⟨hxk, -, hdeps⟩
      refine ⟨hxk, ?_⟩
      have hnil : depsOf g x = [] := by
        cases hd : depsOf g x with
        | nil => rfl
        | cons a r =>
          exact absurd (hdeps a (hd ▸ List.mem_cons_self a r)) (List.not_mem_nil a)
      rw [hdeg0 x hxk, hnil]
      simp
  have hmain := kahnLoop_correct g hwf hac
    (((graphKeys g).filter (fun t => lookupDeg (initInDegree g) t == some 0)).length +
      degSum (initInDegree g))
    ((graphKeys g).filter (fun t => lookupDeg (initInDegree g) t == some 0))
    (initInDegree g) [] le_rfl hkeys0 hdeg0 hqnd0 hqiff0 (depsClosedList_nil g)
    List.nodup_nil (fun x hx => absurd hx (List.not_mem_nil x))
  rw [← hres] at hmain
  obtain ⟨hrescb, hresnd, hresmem⟩ := hmain
  constructor
  · exact perm_of_nodup_mem_iff _ _ hresnd hwf.1.1 hresmem
  · intro nd hnd d hd
    have hedge : edge g nd.name d := by
      rw [edge]
      have hfn : findNode g nd.name = some nd := findNode_self g hwf.1.1 nd hnd
      unfold depsOf
      rw [hfn]
      exact hd
    have hname : nd.name ∈ getTableOrderForOperations g :=
      (hresmem nd.name).mpr (List.mem_map.mpr ⟨nd, hnd, rfl⟩)
    exact (depsClosedList_edge_index g _ hrescb nd.name d hedge hname).2

theorem getTableOrderForOperations_correct_witness :
    (getTableOrderForOperations gchain).Perm (graphKeys gchain) ∧
    ∀ nd ∈ gchain, ∀ d ∈ nd.dependencies,
      (getTableOrderForOperations gchain).indexOf d <
        (getTableOrderForOperations gchain).indexOf nd.name :=
  getTableOrderForOperations_correct gchain (by decide) gchain_acyclic

end Seeding
